import Mathlib

/-!
Verification of the nested-set interval-maintenance engine.

The table of nodes is modelled as a list of rows, each holding a primary
key and the two integer bounds `lft` / `rgt` (the source columns of the
`NestedSet` mixin).  Bulk conditional updates of the source become `List.map`
of per-row functions; conditional deletes become `List.filter`; scalar reads
become `List.find?` lookups.  Every operation is translated from the source
in `nested_sets/__init__.py`:

* `increaseF`      — the per-row update of `increase_space`;
* `outsideF`       — the per-row update of `_move_outside`;
* `shrinkF`        — the per-row update of `_shrink_space`;
* `returnInsideF`  — the per-row update of `return_inside`;
* `create`         — the `before_insert` hook (root and with-parent cases);
* `delete_node`    — the ORM row delete followed by the `after_delete` hook;
* `move_before` / `move_after` / `move_inside` — the three public moves,
  including the movement-not-allowed guard and the phase sequencing
  (`_move_outside`, `_shrink_space`, `move_node_*`).
-/

/-- A row of the nested-set table: primary key and the `lft`/`rgt` bounds. -/
structure Row where
  key : Nat
  lft : Int
  rgt : Int
  deriving DecidableEq, Repr

/-- The table is a list of rows. -/
abbrev Table := List Row

/-- Scalar lookup of a row by primary key (`_primary_key_match` + `select`). -/
def getRow (t : Table) (k : Nat) : Option Row :=
  t.find? (fun r => r.key == k)

/-- Per-row update of `increase_space(nested_sets, connection, position, space,
inclusive)`: rows whose `rgt` passes the comparison get `space` added to `rgt`,
and to `lft` as well when `lft >= position`. -/
def increaseF (position space : Int) (inclusive : Bool) (r : Row) : Row :=
  if (if inclusive then position ≤ r.rgt else position < r.rgt) then
    ⟨r.key, if position ≤ r.lft then r.lft + space else r.lft, r.rgt + space⟩
  else r

/-- Per-row update of `_move_outside`: the subtree of the instance
(`lft >= self.left` and `rgt <= self.right`) has both bounds negated. -/
def outsideF (nl nr : Int) (r : Row) : Row :=
  if nl ≤ r.lft ∧ r.rgt ≤ nr then ⟨r.key, -r.lft, -r.rgt⟩ else r

/-- Per-row update of `_shrink_space`: rows with `rgt > self.right` lose
`width = right - left + 1` from `rgt`, and from `lft` when `lft > self.right`. -/
def shrinkF (nl nr : Int) (r : Row) : Row :=
  if nr < r.rgt then
    ⟨r.key, if nr < r.lft then r.lft - (nr - nl + 1) else r.lft, r.rgt - (nr - nl + 1)⟩
  else r

/-- Per-row update of `return_inside`: quarantined rows (`lft < 0`) are
un-negated and shifted by `distance`. -/
def returnInsideF (distance : Int) (r : Row) : Row :=
  if r.lft < 0 then ⟨r.key, -r.lft - distance, -r.rgt - distance⟩ else r

/-- The scalar `select(rgt).order_by(desc(rgt))`: the maximal `rgt` of the
table, with the falsy check of `before_insert` turning an absent row into 0
(a present value of 0 is already 0). -/
def maxRgt : Table → Int
  | [] => 0
  | [r] => r.rgt
  | r :: s :: rs => max r.rgt (maxRgt (s :: rs))

/-- The `before_insert` hook followed by the physical INSERT.  With no parent
the new root takes `(M+1, M+2)` past the maximal `rgt` (`0` for an empty
table, matching the falsy check on the scalar).  With a parent the hook reads
the parent's current `rgt` as `R`, runs `increase_space(..., R, 2)`, and the
new row takes `(R, R+1)`.  `none` when the parent key does not resolve. -/
def create (t : Table) (k : Nat) (parent : Option Nat) : Option Table :=
  match parent with
  | none =>
      let m := maxRgt t
      some (t ++ [⟨k, m + 1, m + 2⟩])
  | some pk => do
      let p ← getRow t pk
      some ((t.map (increaseF p.rgt 2 true)) ++ [⟨k, p.rgt, p.rgt + 1⟩])

/-- Session delete of the row followed by the `after_delete` hook: the hook
runs `_shrink_space` with the instance's original bounds and then bulk-deletes
the rows with `lft > instance.left` and `rgt < instance.right`. -/
def delete_node (t : Table) (nk : Nat) : Option Table := do
  let n ← getRow t nk
  let t1 := t.filter (fun r => !(r.key == nk))
  let t2 := t1.map (shrinkF n.lft n.rgt)
  some (t2.filter (fun r => !(decide (n.lft < r.lft ∧ r.rgt < n.rgt))))

/-- `move_before`: guard `self.left <= target.left and self.right >=
target.right` raises; otherwise `_move_outside`, `_shrink_space`, then
`move_node_before` (re-reading the target's current `lft`, opening an
inclusive gap of the subtree width there, and returning the quarantined rows
with `distance = self.left - target_left`).  The outer `Option` is `none`
when a key fails to resolve; `.error ()` is the raised
`NestedSetMovementNotAllowed`. -/
def move_before (t : Table) (nk tk : Nat) : Option (Except Unit Table) := do
  let n ← getRow t nk
  let tgt ← getRow t tk
  if n.lft ≤ tgt.lft ∧ tgt.rgt ≤ n.rgt then
    some (.error ())
  else do
    let t1 := t.map (outsideF n.lft n.rgt)
    let t2 := t1.map (shrinkF n.lft n.rgt)
    let w := n.rgt - n.lft + 1
    let tgt2 ← getRow t2 tk
    let t3 := t2.map (increaseF tgt2.lft w true)
    some (.ok (t3.map (returnInsideF (n.lft - tgt2.lft))))

/-- `move_after`: same phases, but `move_node_after` reads the target's
current `rgt`, opens an exclusive gap there, and uses
`distance = self.left - target_right - 1`. -/
def move_after (t : Table) (nk tk : Nat) : Option (Except Unit Table) := do
  let n ← getRow t nk
  let tgt ← getRow t tk
  if n.lft ≤ tgt.lft ∧ tgt.rgt ≤ n.rgt then
    some (.error ())
  else do
    let t1 := t.map (outsideF n.lft n.rgt)
    let t2 := t1.map (shrinkF n.lft n.rgt)
    let w := n.rgt - n.lft + 1
    let tgt2 ← getRow t2 tk
    let t3 := t2.map (increaseF tgt2.rgt w false)
    some (.ok (t3.map (returnInsideF (n.lft - tgt2.rgt - 1))))

/-- `move_inside`: same phases, but `move_node_inside` reads the target's
current `rgt`, opens an inclusive gap there, and uses
`distance = self.left - target_right`. -/
def move_inside (t : Table) (nk tk : Nat) : Option (Except Unit Table) := do
  let n ← getRow t nk
  let tgt ← getRow t tk
  if n.lft ≤ tgt.lft ∧ tgt.rgt ≤ n.rgt then
    some (.error ())
  else do
    let t1 := t.map (outsideF n.lft n.rgt)
    let t2 := t1.map (shrinkF n.lft n.rgt)
    let w := n.rgt - n.lft + 1
    let tgt2 ← getRow t2 tk
    let t3 := t2.map (increaseF tgt2.rgt w true)
    some (.ok (t3.map (returnInsideF (n.lft - tgt2.rgt))))

/-- The four-way relation of the nesting law: disjoint one way, disjoint the
other way, strictly containing, or strictly contained. -/
def disjointOrNested (a b : Row) : Prop :=
  a.rgt < b.lft ∨ b.rgt < a.lft ∨
    (a.lft < b.lft ∧ b.rgt < a.rgt) ∨ (b.lft < a.lft ∧ a.rgt < b.rgt)

instance (a b : Row) : Decidable (disjointOrNested a b) := by
  unfold disjointOrNested; infer_instance

/-- Exactly one of the four cases of the nesting law holds. -/
def exactlyOneNested (a b : Row) : Prop :=
  (a.rgt < b.lft ∧ ¬ b.rgt < a.lft ∧ ¬ (a.lft < b.lft ∧ b.rgt < a.rgt) ∧
      ¬ (b.lft < a.lft ∧ a.rgt < b.rgt)) ∨
  (¬ a.rgt < b.lft ∧ b.rgt < a.lft ∧ ¬ (a.lft < b.lft ∧ b.rgt < a.rgt) ∧
      ¬ (b.lft < a.lft ∧ a.rgt < b.rgt)) ∨
  (¬ a.rgt < b.lft ∧ ¬ b.rgt < a.lft ∧ (a.lft < b.lft ∧ b.rgt < a.rgt) ∧
      ¬ (b.lft < a.lft ∧ a.rgt < b.rgt)) ∨
  (¬ a.rgt < b.lft ∧ ¬ b.rgt < a.lft ∧ ¬ (a.lft < b.lft ∧ b.rgt < a.rgt) ∧
      (b.lft < a.lft ∧ a.rgt < b.rgt))

instance (a b : Row) : Decidable (exactlyOneNested a b) := by
  unfold exactlyOneNested; infer_instance

/-- The forest invariant: positive bounds, `lft < rgt`, unique keys, and the
strict nesting law for every pair of rows with distinct keys. -/
def Valid (t : Table) : Prop :=
  (∀ r ∈ t, 0 < r.lft) ∧
  (∀ r ∈ t, r.lft < r.rgt) ∧
  (t.map Row.key).Nodup ∧
  (∀ r ∈ t, ∀ s ∈ t, r.key ≠ s.key → disjointOrNested r s)

instance (t : Table) : Decidable (Valid t) := by
  unfold Valid; infer_instance

/-- Reachable tables: the empty store closed under create (with a fresh key,
with or without parent), delete, and the accepted moves. -/
inductive Reach : Table → Prop
  | empty : Reach []
  | create_step (t : Table) (k : Nat) (parent : Option Nat) (t' : Table)
      (h : Reach t) (hfresh : ∀ r ∈ t, r.key ≠ k)
      (hc : create t k parent = some t') : Reach t'
  | delete_step (t : Table) (nk : Nat) (t' : Table)
      (h : Reach t) (hd : delete_node t nk = some t') : Reach t'
  | move_before_step (t : Table) (nk tk : Nat) (t' : Table)
      (h : Reach t) (hm : move_before t nk tk = some (.ok t')) : Reach t'
  | move_after_step (t : Table) (nk tk : Nat) (t' : Table)
      (h : Reach t) (hm : move_after t nk tk = some (.ok t')) : Reach t'
  | move_inside_step (t : Table) (nk tk : Nat) (t' : Table)
      (h : Reach t) (hm : move_inside t nk tk = some (.ok t')) : Reach t'

/-- The public `children` property of a node: the transient `_children`
collection (`none` before reconstruction, a deque afterwards) is exposed as a
tuple when it is non-empty and as `None` when it is absent or empty (the
truthiness test `if self._children`). -/
def children (c : Option (List Nat)) : Option (List Nat) :=
  match c with
  | none => none
  | some [] => none
  | some l => some l

/-- The forest of the scenario in the spec: A=(1,12), B=(2,3), C=(4,11),
D=(5,6), E=(7,8), F=(9,10). -/
def specScenario : Table :=
  [⟨1, 1, 12⟩, ⟨2, 2, 3⟩, ⟨3, 4, 11⟩, ⟨4, 5, 6⟩, ⟨5, 7, 8⟩, ⟨6, 9, 10⟩]

-- Sanity check against the scenario of the spec: A, B, C, D, E, F
-- inserted in that order give A=(1,12), B=(2,3), C=(4,11), D=(5,6),
-- E=(7,8), F=(9,10).
example :
    (do
      let t1 ← create [] 1 none
      let t2 ← create t1 2 (some 1)
      let t3 ← create t2 3 (some 1)
      let t4 ← create t3 4 (some 3)
      let t5 ← create t4 5 (some 3)
      create t5 6 (some 3)) = some specScenario := by
  decide

/-! ## Basic helper lemmas -/

theorem getRow_mem {t : Table} {k : Nat} {r : Row} (h : getRow t k = some r) :
    r ∈ t ∧ r.key = k := by
  refine ⟨List.mem_of_find?_eq_some h, ?_⟩
  have h2 := List.find?_some h
  simpa using h2

theorem getRow_map {f : Row → Row} (hf : ∀ x, (f x).key = x.key) :
    ∀ (t : Table) (k : Nat), getRow (t.map f) k = (getRow t k).map f
  | [], _ => rfl
  | a :: as, k => by
      unfold getRow
      simp only [List.map_cons]
      cases hb : (a.key == k) with
      | true =>
          rw [List.find?_cons_of_pos _ (by simpa [hf] using hb),
            List.find?_cons_of_pos _ (by simpa using hb)]
          rfl
      | false =>
          rw [List.find?_cons_of_neg _ (by simpa [hf] using hb),
            List.find?_cons_of_neg _ (by simpa using hb)]
          exact getRow_map hf as k

theorem increaseF_key (position space : Int) (inclusive : Bool) (r : Row) :
    (increaseF position space inclusive r).key = r.key := by
  unfold increaseF; split <;> split <;> rfl

theorem outsideF_key (nl nr : Int) (r : Row) :
    (outsideF nl nr r).key = r.key := by
  unfold outsideF; split <;> rfl

theorem shrinkF_key (nl nr : Int) (r : Row) :
    (shrinkF nl nr r).key = r.key := by
  unfold shrinkF; split <;> rfl

theorem returnInsideF_key (distance : Int) (r : Row) :
    (returnInsideF distance r).key = r.key := by
  unfold returnInsideF; split <;> rfl

theorem le_maxRgt : ∀ (t : Table), ∀ r ∈ t, r.rgt ≤ maxRgt t
  | [] => by simp
  | [r] => by simp [maxRgt]
  | r :: s :: rs => by
      intro x hx
      rcases List.mem_cons.mp hx with h | h
      · subst h; simp [maxRgt]
      · calc x.rgt ≤ maxRgt (s :: rs) := le_maxRgt (s :: rs) x h
          _ ≤ maxRgt (r :: s :: rs) := by simp [maxRgt]

theorem maxRgt_mem : ∀ (t : Table), t ≠ [] → ∃ r ∈ t, maxRgt t = r.rgt
  | [], h => absurd rfl h
  | [r], _ => ⟨r, by simp, by simp [maxRgt]⟩
  | r :: s :: rs, _ => by
      rcases maxRgt_mem (s :: rs) (by simp) with ⟨x, hx, he⟩
      by_cases h : maxRgt (s :: rs) ≤ r.rgt
      · exact ⟨r, by simp, by simp [maxRgt, max_eq_left h]⟩
      · refine ⟨x, List.mem_cons_of_mem r hx, ?_⟩
        have hm : maxRgt (r :: s :: rs) = max r.rgt (maxRgt (s :: rs)) := rfl
        rw [hm, max_eq_right (le_of_not_le h), he]

/-! ## C4: the movement-not-allowed guard -/

/-- C4: whenever `N.left <= T.left` and `T.right <= N.right` (including
`T = N`), each of `move_before`, `move_after` and `move_inside` raises
`NestedSetMovementNotAllowed`; the guard fires before any of the bulk
updates, so no bounds change. -/
theorem moves_reject_inside_target (t : Table) (nk tk : Nat) (n tgt : Row)
    (hn : getRow t nk = some n) (ht : getRow t tk = some tgt)
    (h1 : n.lft ≤ tgt.lft) (h2 : tgt.rgt ≤ n.rgt) :
    move_before t nk tk = some (.error ()) ∧
    move_after t nk tk = some (.error ()) ∧
    move_inside t nk tk = some (.error ()) := by
  simp [move_before, move_after, move_inside, hn, ht, h1, h2]

/-- Witness for C4: moving C before/after/inside its own child D in the
scenario forest is rejected. -/
theorem moves_reject_inside_target_witness :
    move_before specScenario 3 4 = some (.error ()) ∧
    move_after specScenario 3 4 = some (.error ()) ∧
    move_inside specScenario 3 4 = some (.error ()) :=
  moves_reject_inside_target specScenario 3 4 ⟨3, 4, 11⟩ ⟨4, 5, 6⟩
    (by decide) (by decide) (by decide) (by decide)

/-! ## C6: creating a root node -/

/-- C6: creating a node with no parent appends it with bounds `(M+1, M+2)`
where `M` is the maximal `rgt` of the store (`0` for the empty store), and
no existing row is touched. -/
theorem create_root_spec (t : Table) (k : Nat) :
    create t k none = some (t ++ [⟨k, maxRgt t + 1, maxRgt t + 2⟩]) ∧
    (∀ r ∈ t, r.rgt ≤ maxRgt t) ∧
    (t = [] → maxRgt t = 0) ∧
    (t ≠ [] → ∃ r ∈ t, maxRgt t = r.rgt) := by
  refine ⟨rfl, le_maxRgt t, ?_, maxRgt_mem t⟩
  rintro rfl; rfl

/-- Witness for C6 at the scenario forest: the new root is appended with
bounds (13, 14). -/
theorem create_root_spec_witness :
    create specScenario 7 none =
      some (specScenario ++ [⟨7, maxRgt specScenario + 1, maxRgt specScenario + 2⟩]) ∧
    maxRgt specScenario = 12 :=
  ⟨(create_root_spec specScenario 7).1, by decide⟩

/-! ## C2: deletion also removes rows outside the deleted subtree -/

/-- Two independent trees: a root (1,4) with child (2,3) and a root (5,8)
with child (6,7). -/
def pairedRoots : Table := [⟨1, 1, 4⟩, ⟨2, 2, 3⟩, ⟨3, 5, 8⟩, ⟨4, 6, 7⟩]

/-- C2 fails on the code: deleting node 1 = (1,4) from a valid forest also
deletes row 4 = (6,7), whose bounds do not lie inside (1,4): `after_delete`
runs `_shrink_space` first, which moves row 4 to (2,3), and the subsequent
range delete then removes it.  Only row 3 survives (as (1,4)). -/
theorem delete_removes_foreign_row :
    Valid pairedRoots ∧
    delete_node pairedRoots 1 = some [⟨3, 1, 4⟩] ∧
    (⟨4, 6, 7⟩ : Row) ∈ pairedRoots ∧ ¬ ((1 : Int) < 6 ∧ (7 : Int) < 4) := by
  decide

/-! ## Value-level shift functions

Every bulk update of the engine acts on each bound value independently (for
valid rows): `stepClose` is the gap closure of `_shrink_space`, `stepOpen`
the gap opening of `increase_space`. -/

/-- Gap closure on one bound value: values past `nr` lose the width. -/
def stepClose (nl nr v : Int) : Int :=
  if nr < v then v - (nr - nl + 1) else v

/-- Gap opening on one bound value: values at (inclusive) or past (exclusive)
`pos` gain `space`. -/
def stepOpen (pos space : Int) (inclusive : Bool) (v : Int) : Int :=
  if (if inclusive then pos ≤ v else pos < v) then v + space else v

/-- The combined per-value action of a move on a non-quarantined bound. -/
def shiftVal (nl nr pos : Int) (inc : Bool) (v : Int) : Int :=
  stepOpen pos (nr - nl + 1) inc (stepClose nl nr v)

/-- `r` lies in the subtree of the node with bounds `(nl, nr)` (the rows
matched by `_move_outside`). -/
def inSub (nl nr : Int) (r : Row) : Prop :=
  nl ≤ r.lft ∧ r.rgt ≤ nr

instance (nl nr : Int) (r : Row) : Decidable (inSub nl nr r) := by
  unfold inSub; infer_instance

theorem stepClose_mono {nl nr v v' : Int}
    (hd : v ≤ nl - 1 ∨ nr + 1 ≤ v) (hd' : v' ≤ nl - 1 ∨ nr + 1 ≤ v')
    (hlt : v < v') (hw : nl ≤ nr) : stepClose nl nr v < stepClose nl nr v' := by
  unfold stepClose; split_ifs <;> omega

theorem stepOpen_mono {pos space v v' : Int} {inc : Bool}
    (hs : 0 < space) (hlt : v < v') :
    stepOpen pos space inc v < stepOpen pos space inc v' := by
  unfold stepOpen; cases inc <;> simp only [Bool.false_eq_true, if_true, if_false] <;>
    split_ifs <;> omega

theorem shiftVal_mono {nl nr pos v v' : Int} {inc : Bool}
    (hd : v ≤ nl - 1 ∨ nr + 1 ≤ v) (hd' : v' ≤ nl - 1 ∨ nr + 1 ≤ v')
    (hlt : v < v') (hw : nl ≤ nr) :
    shiftVal nl nr pos inc v < shiftVal nl nr pos inc v' :=
  stepOpen_mono (by omega) (stepClose_mono hd hd' hlt hw)

/-- The opened gap is free of shifted values: with `quarLo = pos` for the
inclusive comparison and `pos + 1` for the exclusive one, every shifted value
avoids `[quarLo, quarLo + w - 1]` where `w = nr - nl + 1`. -/
theorem shiftVal_gap {nl nr pos v : Int} {inc : Bool} (hw : nl ≤ nr) :
    shiftVal nl nr pos inc v < (if inc then pos else pos + 1) ∨
    (if inc then pos else pos + 1) + (nr - nl + 1) ≤ shiftVal nl nr pos inc v := by
  unfold shiftVal stepOpen stepClose
  cases inc <;> simp only [Bool.false_eq_true, if_true, if_false] <;> split_ifs <;> omega

theorem shiftVal_pos {nl nr pos v : Int} {inc : Bool}
    (h1 : 0 < v) (hnl : 0 < nl) (hw : nl ≤ nr) :
    0 < shiftVal nl nr pos inc v := by
  unfold shiftVal stepOpen stepClose
  cases inc <;> split_ifs <;> omega

/-! ## Row-level characterization of the phases -/

theorem shrinkF_eq (nl nr : Int) (r : Row) (hord : r.lft < r.rgt) :
    shrinkF nl nr r = ⟨r.key, stepClose nl nr r.lft, stepClose nl nr r.rgt⟩ := by
  by_cases h1 : nr < r.lft <;> by_cases h2 : nr < r.rgt <;>
    simp [shrinkF, stepClose, h1, h2, Row.mk.injEq] <;> omega

theorem increaseF_eq_incl (pos space : Int) (r : Row)
    (hord : r.lft < r.rgt) (hs : 0 < space) :
    increaseF pos space true r =
      ⟨r.key, stepOpen pos space true r.lft, stepOpen pos space true r.rgt⟩ := by
  by_cases h1 : pos ≤ r.lft <;> by_cases h2 : pos ≤ r.rgt <;>
    simp [increaseF, stepOpen, h1, h2, Row.mk.injEq] <;> omega

theorem increaseF_eq_excl (pos space : Int) (r : Row)
    (hord : r.lft < r.rgt) (hs : 0 < space) (hne : r.lft ≠ pos) :
    increaseF pos space false r =
      ⟨r.key, stepOpen pos space false r.lft, stepOpen pos space false r.rgt⟩ := by
  by_cases h1 : pos < r.lft <;> by_cases h2 : pos < r.rgt <;>
    simp [increaseF, stepOpen, h1, h2, Row.mk.injEq] <;> omega

/-! ## Facts derived from the forest invariant -/

theorem key_inj {t : Table} {r s : Row} (hv : Valid t)
    (hr : r ∈ t) (hs : s ∈ t) (hk : r.key = s.key) : r = s :=
  List.inj_on_of_nodup_map hv.2.2.1 hr hs hk

/-- Classification of a row relative to a node of the same valid forest:
inside its subtree, wholly left, a strict ancestor, or wholly right. -/
theorem classify {t : Table} {n r : Row} (hv : Valid t)
    (hn : n ∈ t) (hr : r ∈ t) :
    inSub n.lft n.rgt r ∨ r.rgt < n.lft ∨
      (r.lft < n.lft ∧ n.rgt < r.rgt) ∨ n.rgt < r.lft := by
  by_cases hk : r.key = n.key
  · left
    rw [key_inj hv hr hn hk]
    exact ⟨le_refl _, le_refl _⟩
  · rcases hv.2.2.2 r hr n hn hk with h | h | h | h
    · exact Or.inr (Or.inl h)
    · exact Or.inr (Or.inr (Or.inr h))
    · exact Or.inr (Or.inr (Or.inl ⟨h.1, h.2⟩))
    · exact Or.inl ⟨le_of_lt h.1, le_of_lt h.2⟩

/-- Both bounds of a row that is not in the subtree of `n` avoid the closed
interval `[n.lft, n.rgt]`. -/
theorem bounds_dom {t : Table} {n r : Row} (hv : Valid t)
    (hn : n ∈ t) (hr : r ∈ t) (hnq : ¬ inSub n.lft n.rgt r) :
    (r.lft ≤ n.lft - 1 ∨ n.rgt + 1 ≤ r.lft) ∧
    (r.rgt ≤ n.lft - 1 ∨ n.rgt + 1 ≤ r.rgt) := by
  have hord := hv.2.1 r hr
  rcases classify hv hn hr with h | h | h | h
  · exact absurd h hnq
  · constructor <;> left <;> omega
  · constructor
    · left; omega
    · right; omega
  · constructor <;> right <;> omega

/-- In a valid forest a `lft` bound never equals a `rgt` bound (of the same
or of another row). -/
theorem lft_ne_rgt {t : Table} {r s : Row} (hv : Valid t)
    (hr : r ∈ t) (hs : s ∈ t) : r.lft ≠ s.rgt := by
  by_cases hk : r.key = s.key
  · rw [key_inj hv hr hs hk]
    have := hv.2.1 s hs
    omega
  · have h1 := hv.2.1 r hr
    have h2 := hv.2.1 s hs
    rcases hv.2.2.2 r hr s hs hk with h | h | h | h <;> omega

/-- The composed per-row action of a move: quarantine, close the gap, open
the destination gap, return the quarantined rows. -/
def moveRowF (nl nr pos : Int) (inc : Bool) (dist : Int) (r : Row) : Row :=
  returnInsideF dist (increaseF pos (nr - nl + 1) inc (shrinkF nl nr (outsideF nl nr r)))

theorem moveRowF_key (nl nr pos : Int) (inc : Bool) (dist : Int) (r : Row) :
    (moveRowF nl nr pos inc dist r).key = r.key := by
  unfold moveRowF
  rw [returnInsideF_key, increaseF_key, shrinkF_key, outsideF_key]

/-- A quarantined row traverses the phases untouched by the two global
shifts and comes back shifted by `dist`. -/
theorem moveRowF_quar (nl nr pos dist : Int) (inc : Bool) (r : Row)
    (hq : inSub nl nr r) (h0 : 0 < r.lft) (hord : r.lft < r.rgt) (hpos : 0 < pos) :
    moveRowF nl nr pos inc dist r = ⟨r.key, r.lft - dist, r.rgt - dist⟩ := by
  obtain ⟨hq1, hq2⟩ := hq
  have h1 : outsideF nl nr r = ⟨r.key, -r.lft, -r.rgt⟩ := by
    unfold outsideF; rw [if_pos ⟨hq1, hq2⟩]
  have h2 : shrinkF nl nr (⟨r.key, -r.lft, -r.rgt⟩ : Row) = ⟨r.key, -r.lft, -r.rgt⟩ := by
    unfold shrinkF
    rw [if_neg]
    show ¬ nr < -r.rgt
    omega
  have h3 : increaseF pos (nr - nl + 1) inc (⟨r.key, -r.lft, -r.rgt⟩ : Row) =
      ⟨r.key, -r.lft, -r.rgt⟩ := by
    unfold increaseF
    rw [if_neg]
    cases inc <;> simp <;> omega
  have h4 : returnInsideF dist (⟨r.key, -r.lft, -r.rgt⟩ : Row) =
      ⟨r.key, r.lft - dist, r.rgt - dist⟩ := by
    unfold returnInsideF
    rw [if_pos (by simp; omega : (⟨r.key, -r.lft, -r.rgt⟩ : Row).lft < 0)]
    simp [Row.mk.injEq]
  unfold moveRowF
  rw [h1, h2, h3, h4]

/-- A row outside the moved subtree is untouched by quarantine and return,
and both its bounds move by `shiftVal`. -/
theorem moveRowF_nonquar (nl nr pos dist : Int) (inc : Bool) (r : Row)
    (hnq : ¬ inSub nl nr r) (hord : r.lft < r.rgt)
    (hdl : r.lft ≤ nl - 1 ∨ nr + 1 ≤ r.lft) (hdr : r.rgt ≤ nl - 1 ∨ nr + 1 ≤ r.rgt)
    (h0 : 0 < r.lft) (hnl : 0 < nl) (hw : nl ≤ nr)
    (hne : inc = false → stepClose nl nr r.lft ≠ pos) :
    moveRowF nl nr pos inc dist r =
      ⟨r.key, shiftVal nl nr pos inc r.lft, shiftVal nl nr pos inc r.rgt⟩ := by
  have h1 : outsideF nl nr r = r := by
    unfold inSub at hnq; unfold outsideF; rw [if_neg hnq]
  have hord2 : stepClose nl nr r.lft < stepClose nl nr r.rgt :=
    stepClose_mono hdl hdr hord hw
  have h3 : increaseF pos (nr - nl + 1) inc (⟨r.key, stepClose nl nr r.lft,
      stepClose nl nr r.rgt⟩ : Row) =
      ⟨r.key, shiftVal nl nr pos inc r.lft, shiftVal nl nr pos inc r.rgt⟩ := by
    cases inc with
    | true => exact increaseF_eq_incl pos (nr - nl + 1) _ hord2 (by omega)
    | false => exact increaseF_eq_excl pos (nr - nl + 1) _ hord2 (by omega) (hne rfl)
  have h4 : returnInsideF dist (⟨r.key, shiftVal nl nr pos inc r.lft,
      shiftVal nl nr pos inc r.rgt⟩ : Row) =
      ⟨r.key, shiftVal nl nr pos inc r.lft, shiftVal nl nr pos inc r.rgt⟩ := by
    unfold returnInsideF
    rw [if_neg]
    show ¬ shiftVal nl nr pos inc r.lft < 0
    have := @shiftVal_pos _ _ pos _ inc h0 hnl hw
    omega
  unfold moveRowF
  rw [h1, shrinkF_eq nl nr r hord, h3, h4]

/-! ## Table-level characterization of the three moves -/

theorem getRow_self {t : Table} {r : Row} (hv : Valid t) (hr : r ∈ t) :
    getRow t r.key = some r := by
  have hsome : (t.find? (fun x => x.key == r.key)).isSome :=
    List.find?_isSome.mpr ⟨r, hr, by simp⟩
  obtain ⟨s, hs⟩ := Option.isSome_iff_exists.mp hsome
  obtain ⟨hsm, hsk⟩ := getRow_mem hs
  rw [getRow, hs, key_inj hv hsm hr hsk]

theorem move_before_eq {t : Table} {nk tk : Nat} {n tgt : Row}
    (hv : Valid t) (hn : getRow t nk = some n) (ht : getRow t tk = some tgt)
    (hg : ¬ (n.lft ≤ tgt.lft ∧ tgt.rgt ≤ n.rgt)) :
    move_before t nk tk = some (.ok (t.map (moveRowF n.lft n.rgt
      (stepClose n.lft n.rgt tgt.lft) true
      (n.lft - stepClose n.lft n.rgt tgt.lft)))) := by
  have htm := (getRow_mem ht).1
  have hsh : shrinkF n.lft n.rgt (outsideF n.lft n.rgt tgt) =
      ⟨tgt.key, stepClose n.lft n.rgt tgt.lft, stepClose n.lft n.rgt tgt.rgt⟩ := by
    have h1 : outsideF n.lft n.rgt tgt = tgt := by
      unfold outsideF; rw [if_neg hg]
    rw [h1, shrinkF_eq _ _ _ (hv.2.1 tgt htm)]
  have h2 : getRow ((t.map (outsideF n.lft n.rgt)).map (shrinkF n.lft n.rgt)) tk =
      some (⟨tgt.key, stepClose n.lft n.rgt tgt.lft,
        stepClose n.lft n.rgt tgt.rgt⟩ : Row) := by
    rw [getRow_map (shrinkF_key n.lft n.rgt), getRow_map (outsideF_key n.lft n.rgt), ht]
    simp [hsh]
  unfold move_before
  rw [hn, ht]
  simp only [Option.bind_eq_bind, Option.some_bind]
  rw [if_neg hg, h2]
  simp only [Option.bind_eq_bind, Option.some_bind]
  rw [List.map_map, List.map_map, List.map_map]
  rfl

theorem move_after_eq {t : Table} {nk tk : Nat} {n tgt : Row}
    (hv : Valid t) (hn : getRow t nk = some n) (ht : getRow t tk = some tgt)
    (hg : ¬ (n.lft ≤ tgt.lft ∧ tgt.rgt ≤ n.rgt)) :
    move_after t nk tk = some (.ok (t.map (moveRowF n.lft n.rgt
      (stepClose n.lft n.rgt tgt.rgt) false
      (n.lft - stepClose n.lft n.rgt tgt.rgt - 1)))) := by
  have htm := (getRow_mem ht).1
  have hsh : shrinkF n.lft n.rgt (outsideF n.lft n.rgt tgt) =
      ⟨tgt.key, stepClose n.lft n.rgt tgt.lft, stepClose n.lft n.rgt tgt.rgt⟩ := by
    have h1 : outsideF n.lft n.rgt tgt = tgt := by
      unfold outsideF; rw [if_neg hg]
    rw [h1, shrinkF_eq _ _ _ (hv.2.1 tgt htm)]
  have h2 : getRow ((t.map (outsideF n.lft n.rgt)).map (shrinkF n.lft n.rgt)) tk =
      some (⟨tgt.key, stepClose n.lft n.rgt tgt.lft,
        stepClose n.lft n.rgt tgt.rgt⟩ : Row) := by
    rw [getRow_map (shrinkF_key n.lft n.rgt), getRow_map (outsideF_key n.lft n.rgt), ht]
    simp [hsh]
  unfold move_after
  rw [hn, ht]
  simp only [Option.bind_eq_bind, Option.some_bind]
  rw [if_neg hg, h2]
  simp only [Option.bind_eq_bind, Option.some_bind]
  rw [List.map_map, List.map_map, List.map_map]
  rfl

theorem move_inside_eq {t : Table} {nk tk : Nat} {n tgt : Row}
    (hv : Valid t) (hn : getRow t nk = some n) (ht : getRow t tk = some tgt)
    (hg : ¬ (n.lft ≤ tgt.lft ∧ tgt.rgt ≤ n.rgt)) :
    move_inside t nk tk = some (.ok (t.map (moveRowF n.lft n.rgt
      (stepClose n.lft n.rgt tgt.rgt) true
      (n.lft - stepClose n.lft n.rgt tgt.rgt)))) := by
  have htm := (getRow_mem ht).1
  have hsh : shrinkF n.lft n.rgt (outsideF n.lft n.rgt tgt) =
      ⟨tgt.key, stepClose n.lft n.rgt tgt.lft, stepClose n.lft n.rgt tgt.rgt⟩ := by
    have h1 : outsideF n.lft n.rgt tgt = tgt := by
      unfold outsideF; rw [if_neg hg]
    rw [h1, shrinkF_eq _ _ _ (hv.2.1 tgt htm)]
  have h2 : getRow ((t.map (outsideF n.lft n.rgt)).map (shrinkF n.lft n.rgt)) tk =
      some (⟨tgt.key, stepClose n.lft n.rgt tgt.lft,
        stepClose n.lft n.rgt tgt.rgt⟩ : Row) := by
    rw [getRow_map (shrinkF_key n.lft n.rgt), getRow_map (outsideF_key n.lft n.rgt), ht]
    simp [hsh]
  unfold move_inside
  rw [hn, ht]
  simp only [Option.bind_eq_bind, Option.some_bind]
  rw [if_neg hg, h2]
  simp only [Option.bind_eq_bind, Option.some_bind]
  rw [List.map_map, List.map_map, List.map_map]
  rfl

/-- The per-row image of a move, with the hypotheses available for each
member of a valid table: quarantined rows shift by the common offset, the
others by `shiftVal`. -/
theorem moveRowF_img {t : Table} {n : Row} {pos quarLo : Int} {inc : Bool}
    (hv : Valid t) (hn : n ∈ t) (hpos : 0 < pos)
    (hne : inc = false → ∀ r ∈ t, ¬ inSub n.lft n.rgt r →
      stepClose n.lft n.rgt r.lft ≠ pos) :
    ∀ r ∈ t,
      (inSub n.lft n.rgt r ∧
        moveRowF n.lft n.rgt pos inc (n.lft - quarLo) r =
          ⟨r.key, r.lft - (n.lft - quarLo), r.rgt - (n.lft - quarLo)⟩) ∨
      (¬ inSub n.lft n.rgt r ∧
        moveRowF n.lft n.rgt pos inc (n.lft - quarLo) r =
          ⟨r.key, shiftVal n.lft n.rgt pos inc r.lft,
            shiftVal n.lft n.rgt pos inc r.rgt⟩ ∧
        (r.lft ≤ n.lft - 1 ∨ n.rgt + 1 ≤ r.lft) ∧
        (r.rgt ≤ n.lft - 1 ∨ n.rgt + 1 ≤ r.rgt)) := by
  intro r hr
  by_cases hq : inSub n.lft n.rgt r
  · exact Or.inl ⟨hq, moveRowF_quar _ _ _ _ _ _ hq (hv.1 r hr) (hv.2.1 r hr) hpos⟩
  · obtain ⟨hdl, hdr⟩ := bounds_dom hv hn hr hq
    refine Or.inr ⟨hq, moveRowF_nonquar _ _ _ _ _ _ hq (hv.2.1 r hr) hdl hdr
      (hv.1 r hr) (hv.1 n hn) (le_of_lt (hv.2.1 n hn)) ?_, hdl, hdr⟩
    intro hif
    exact hne hif r hr hq

/-- A move whose guard passed maps a valid table to a valid table. -/
theorem map_moveRowF_valid {t : Table} {n : Row} {pos quarLo : Int} {inc : Bool}
    (hv : Valid t) (hn : n ∈ t) (hpos : 0 < pos)
    (hql : quarLo = if inc then pos else pos + 1)
    (hne : inc = false → ∀ r ∈ t, ¬ inSub n.lft n.rgt r →
      stepClose n.lft n.rgt r.lft ≠ pos) :
    Valid (t.map (moveRowF n.lft n.rgt pos inc (n.lft - quarLo))) := by
  have hnl : 0 < n.lft := hv.1 n hn
  have hno : n.lft < n.rgt := hv.2.1 n hn
  have hw : n.lft ≤ n.rgt := le_of_lt hno
  have hqlb : pos ≤ quarLo ∧ quarLo ≤ pos + 1 := by
    rw [hql]; cases inc <;> simp
  have himg := @moveRowF_img _ _ _ quarLo _ hv hn hpos hne
  refine ⟨?_, ?_, ?_, ?_⟩
  · intro r' hr'
    obtain ⟨r, hr, rfl⟩ := List.mem_map.mp hr'
    rcases himg r hr with ⟨hq, he⟩ | ⟨hq, he, hdl, hdr⟩
    · rw [he]
      show 0 < r.lft - (n.lft - quarLo)
      have := hv.1 r hr
      obtain ⟨h1, h2⟩ := hq
      omega
    · rw [he]
      exact shiftVal_pos (hv.1 r hr) hnl hw
  · intro r' hr'
    obtain ⟨r, hr, rfl⟩ := List.mem_map.mp hr'
    rcases himg r hr with ⟨hq, he⟩ | ⟨hq, he, hdl, hdr⟩
    · rw [he]
      show r.lft - (n.lft - quarLo) < r.rgt - (n.lft - quarLo)
      have := hv.2.1 r hr
      omega
    · rw [he]
      exact shiftVal_mono hdl hdr (hv.2.1 r hr) hw
  · have hkeys : ((t.map (moveRowF n.lft n.rgt pos inc (n.lft - quarLo))).map Row.key) =
        t.map Row.key := by
      rw [List.map_map]
      exact List.map_congr_left (fun r _ => moveRowF_key _ _ _ _ _ r)
    rw [hkeys]
    exact hv.2.2.1
  · intro r' hr' s' hs' hk
    obtain ⟨r, hr, rfl⟩ := List.mem_map.mp hr'
    obtain ⟨s, hs, rfl⟩ := List.mem_map.mp hs'
    have hkrs : r.key ≠ s.key := by
      rwa [moveRowF_key, moveRowF_key] at hk
    have hrel := hv.2.2.2 r hr s hs hkrs
    have hordr := hv.2.1 r hr
    have hords := hv.2.1 s hs
    rcases himg r hr with ⟨hqr, her⟩ | ⟨hqr, her, hdlr, hdrr⟩ <;>
      rcases himg s hs with ⟨hqs, hes⟩ | ⟨hqs, hes, hdls, hdrs⟩
    · rw [her, hes]
      unfold disjointOrNested at hrel ⊢
      dsimp only
      obtain ⟨hr1, hr2⟩ := hqr
      obtain ⟨hs1, hs2⟩ := hqs
      omega
    · rw [her, hes]
      have g1 := @shiftVal_gap _ _ pos s.lft inc hw
      have g2 := @shiftVal_gap _ _ pos s.rgt inc hw
      rw [← hql] at g1 g2
      have hms : shiftVal n.lft n.rgt pos inc s.lft <
          shiftVal n.lft n.rgt pos inc s.rgt := shiftVal_mono hdls hdrs hords hw
      unfold disjointOrNested
      dsimp only
      obtain ⟨hr1, hr2⟩ := hqr
      omega
    · rw [her, hes]
      have g1 := @shiftVal_gap _ _ pos r.lft inc hw
      have g2 := @shiftVal_gap _ _ pos r.rgt inc hw
      rw [← hql] at g1 g2
      have hms : shiftVal n.lft n.rgt pos inc r.lft <
          shiftVal n.lft n.rgt pos inc r.rgt := shiftVal_mono hdlr hdrr hordr hw
      unfold disjointOrNested
      dsimp only
      obtain ⟨hs1, hs2⟩ := hqs
      omega
    · rw [her, hes]
      unfold disjointOrNested at hrel ⊢
      dsimp only
      rcases hrel with h | h | h | h
      · exact Or.inl (shiftVal_mono hdrr hdls h hw)
      · exact Or.inr (Or.inl (shiftVal_mono hdrs hdlr h hw))
      · exact Or.inr (Or.inr (Or.inl
          ⟨shiftVal_mono hdlr hdls h.1 hw, shiftVal_mono hdrs hdrr h.2 hw⟩))
      · exact Or.inr (Or.inr (Or.inr
          ⟨shiftVal_mono hdls hdlr h.1 hw, shiftVal_mono hdrr hdrs h.2 hw⟩))

theorem stepClose_pos {nl nr v : Int} (h0 : 0 < v) (hnl : 0 < nl) (hw : nl ≤ nr) :
    0 < stepClose nl nr v := by
  unfold stepClose; split_ifs <;> omega

theorem stepClose_ne {nl nr a b : Int}
    (hda : a ≤ nl - 1 ∨ nr + 1 ≤ a) (hdb : b ≤ nl - 1 ∨ nr + 1 ≤ b)
    (hne : a ≠ b) (hw : nl ≤ nr) : stepClose nl nr a ≠ stepClose nl nr b := by
  unfold stepClose; split_ifs <;> omega

theorem move_before_inv {t : Table} {nk tk : Nat} {t' : Table}
    (h : move_before t nk tk = some (.ok t')) :
    ∃ n tgt, getRow t nk = some n ∧ getRow t tk = some tgt ∧
      ¬ (n.lft ≤ tgt.lft ∧ tgt.rgt ≤ n.rgt) := by
  cases hn : getRow t nk with
  | none => rw [move_before, hn] at h; simp at h
  | some n =>
    cases ht : getRow t tk with
    | none => rw [move_before, hn, ht] at h; simp at h
    | some tgt =>
      by_cases hg : n.lft ≤ tgt.lft ∧ tgt.rgt ≤ n.rgt
      · rw [move_before, hn, ht] at h
        simp [hg] at h
      · exact ⟨n, tgt, rfl, rfl, hg⟩

theorem move_after_inv {t : Table} {nk tk : Nat} {t' : Table}
    (h : move_after t nk tk = some (.ok t')) :
    ∃ n tgt, getRow t nk = some n ∧ getRow t tk = some tgt ∧
      ¬ (n.lft ≤ tgt.lft ∧ tgt.rgt ≤ n.rgt) := by
  cases hn : getRow t nk with
  | none => rw [move_after, hn] at h; simp at h
  | some n =>
    cases ht : getRow t tk with
    | none => rw [move_after, hn, ht] at h; simp at h
    | some tgt =>
      by_cases hg : n.lft ≤ tgt.lft ∧ tgt.rgt ≤ n.rgt
      · rw [move_after, hn, ht] at h
        simp [hg] at h
      · exact ⟨n, tgt, rfl, rfl, hg⟩

theorem move_inside_inv {t : Table} {nk tk : Nat} {t' : Table}
    (h : move_inside t nk tk = some (.ok t')) :
    ∃ n tgt, getRow t nk = some n ∧ getRow t tk = some tgt ∧
      ¬ (n.lft ≤ tgt.lft ∧ tgt.rgt ≤ n.rgt) := by
  cases hn : getRow t nk with
  | none => rw [move_inside, hn] at h; simp at h
  | some n =>
    cases ht : getRow t tk with
    | none => rw [move_inside, hn, ht] at h; simp at h
    | some tgt =>
      by_cases hg : n.lft ≤ tgt.lft ∧ tgt.rgt ≤ n.rgt
      · rw [move_inside, hn, ht] at h
        simp [hg] at h
      · exact ⟨n, tgt, rfl, rfl, hg⟩

theorem move_before_preserves {t : Table} {nk tk : Nat} {t' : Table}
    (hv : Valid t) (hm : move_before t nk tk = some (.ok t')) : Valid t' := by
  obtain ⟨n, tgt, hn, ht, hg⟩ := move_before_inv hm
  rw [move_before_eq hv hn ht hg] at hm
  simp only [Option.some.injEq, Except.ok.injEq] at hm
  subst hm
  have htm := (getRow_mem ht).1
  exact map_moveRowF_valid hv (getRow_mem hn).1
    (stepClose_pos (hv.1 tgt htm) (hv.1 n (getRow_mem hn).1)
      (le_of_lt (hv.2.1 n (getRow_mem hn).1)))
    rfl (fun hif => by cases hif)

theorem move_inside_preserves {t : Table} {nk tk : Nat} {t' : Table}
    (hv : Valid t) (hm : move_inside t nk tk = some (.ok t')) : Valid t' := by
  obtain ⟨n, tgt, hn, ht, hg⟩ := move_inside_inv hm
  rw [move_inside_eq hv hn ht hg] at hm
  simp only [Option.some.injEq, Except.ok.injEq] at hm
  subst hm
  have htm := (getRow_mem ht).1
  have h0t : 0 < tgt.rgt := by
    have := hv.1 tgt htm
    have := hv.2.1 tgt htm
    omega
  exact map_moveRowF_valid hv (getRow_mem hn).1
    (stepClose_pos h0t (hv.1 n (getRow_mem hn).1)
      (le_of_lt (hv.2.1 n (getRow_mem hn).1)))
    rfl (fun hif => by cases hif)

theorem move_after_preserves {t : Table} {nk tk : Nat} {t' : Table}
    (hv : Valid t) (hm : move_after t nk tk = some (.ok t')) : Valid t' := by
  obtain ⟨n, tgt, hn, ht, hg⟩ := move_after_inv hm
  rw [move_after_eq hv hn ht hg] at hm
  simp only [Option.some.injEq, Except.ok.injEq] at hm
  subst hm
  have hnm := (getRow_mem hn).1
  have htm := (getRow_mem ht).1
  have hnl : 0 < n.lft := hv.1 n hnm
  have hw : n.lft ≤ n.rgt := le_of_lt (hv.2.1 n hnm)
  have h0t : 0 < tgt.rgt := by
    have := hv.1 tgt htm
    have := hv.2.1 tgt htm
    omega
  have hde : n.lft - stepClose n.lft n.rgt tgt.rgt - 1 =
      n.lft - (stepClose n.lft n.rgt tgt.rgt + 1) := by omega
  rw [hde]
  have hdt := bounds_dom hv hnm htm hg
  apply map_moveRowF_valid hv hnm (stepClose_pos h0t hnl hw)
  · simp
  · intro _ r hr hnq
    exact stepClose_ne (bounds_dom hv hnm hr hnq).1 hdt.2
      (lft_ne_rgt hv hr htm) hw

/-! ## Valid preservation for create and delete -/

theorem stepOpen_gap_incl {pos space v : Int} (hs : 0 < space) :
    stepOpen pos space true v < pos ∨ pos + space ≤ stepOpen pos space true v := by
  by_cases h : pos ≤ v <;> simp [stepOpen, h] <;> omega

theorem maxRgt_nonneg {t : Table} (hv : Valid t) : 0 ≤ maxRgt t := by
  rcases eq_or_ne t [] with rfl | hne
  · simp [maxRgt]
  · obtain ⟨r, hr, he⟩ := maxRgt_mem t hne
    have h1 := hv.1 r hr
    have h2 := hv.2.1 r hr
    omega

theorem create_root_preserves {t : Table} {k : Nat} {t' : Table}
    (hv : Valid t) (hfresh : ∀ r ∈ t, r.key ≠ k)
    (hc : create t k none = some t') : Valid t' := by
  have ht' : t' = t ++ [⟨k, maxRgt t + 1, maxRgt t + 2⟩] := by
    rw [create] at hc
    exact (Option.some.inj hc).symm
  subst ht'
  have hm0 := maxRgt_nonneg hv
  refine ⟨?_, ?_, ?_, ?_⟩
  · intro r hr
    rcases List.mem_append.mp hr with h | h
    · exact hv.1 r h
    · simp at h; subst h; show 0 < maxRgt t + 1; omega
  · intro r hr
    rcases List.mem_append.mp hr with h | h
    · exact hv.2.1 r h
    · simp at h; subst h; show maxRgt t + 1 < maxRgt t + 2; omega
  · rw [List.map_append]
    rw [List.nodup_append]
    refine ⟨hv.2.2.1, List.nodup_singleton _, ?_⟩
    intro a ha hb
    simp at hb
    obtain ⟨r, hr, hk⟩ := List.mem_map.mp ha
    exact hfresh r hr (by rw [hk, hb])
  · intro r hr s hs hk
    rcases List.mem_append.mp hr with h1 | h1 <;> rcases List.mem_append.mp hs with h2 | h2
    · exact hv.2.2.2 r h1 s h2 hk
    · simp at h2; subst h2
      have := le_maxRgt t r h1
      left; show r.rgt < maxRgt t + 1; omega
    · simp at h1; subst h1
      have := le_maxRgt t s h2
      right; left; show s.rgt < maxRgt t + 1; omega
    · simp at h1 h2; subst h1; subst h2; exact absurd rfl hk

theorem create_child_inv {t : Table} {k pk : Nat} {t' : Table}
    (hc : create t k (some pk) = some t') :
    ∃ p, getRow t pk = some p ∧
      t' = (t.map (increaseF p.rgt 2 true)) ++ [⟨k, p.rgt, p.rgt + 1⟩] := by
  cases hp : getRow t pk with
  | none => rw [create, hp] at hc; simp at hc
  | some p =>
    rw [create, hp] at hc
    simp only [Option.bind_eq_bind, Option.some_bind, Option.some.injEq] at hc
    exact ⟨p, rfl, hc.symm⟩

theorem create_child_preserves {t : Table} {k pk : Nat} {t' : Table}
    (hv : Valid t) (hfresh : ∀ r ∈ t, r.key ≠ k)
    (hc : create t k (some pk) = some t') : Valid t' := by
  obtain ⟨p, hp, ht'⟩ := create_child_inv hc
  subst ht'
  have hpm := (getRow_mem hp).1
  have hR : 0 < p.rgt := by
    have := hv.1 p hpm
    have := hv.2.1 p hpm
    omega
  have himg : ∀ r ∈ t, increaseF p.rgt 2 true r =
      ⟨r.key, stepOpen p.rgt 2 true r.lft, stepOpen p.rgt 2 true r.rgt⟩ :=
    fun r hr => increaseF_eq_incl p.rgt 2 r (hv.2.1 r hr) (by omega)
  refine ⟨?_, ?_, ?_, ?_⟩
  · intro r hr
    rcases List.mem_append.mp hr with h | h
    · obtain ⟨x, hx, rfl⟩ := List.mem_map.mp h
      rw [himg x hx]
      show 0 < stepOpen p.rgt 2 true x.lft
      have := hv.1 x hx
      unfold stepOpen; split_ifs <;> omega
    · simp at h; subst h
      exact hR
  · intro r hr
    rcases List.mem_append.mp hr with h | h
    · obtain ⟨x, hx, rfl⟩ := List.mem_map.mp h
      rw [himg x hx]
      exact stepOpen_mono (by omega) (hv.2.1 x hx)
    · simp at h; subst h
      show p.rgt < p.rgt + 1
      omega
  · rw [List.map_append]
    rw [List.nodup_append]
    refine ⟨?_, List.nodup_singleton _, ?_⟩
    · have : (t.map (increaseF p.rgt 2 true)).map Row.key = t.map Row.key := by
        rw [List.map_map]
        exact List.map_congr_left (fun r _ => increaseF_key _ _ _ r)
      rw [this]
      exact hv.2.2.1
    · intro a ha hb
      simp at hb
      obtain ⟨r, hr, hk⟩ := List.mem_map.mp ha
      obtain ⟨x, hx, rfl⟩ := List.mem_map.mp hr
      rw [increaseF_key] at hk
      exact hfresh x hx (by rw [hk, hb])
  · intro r hr s hs hk
    rcases List.mem_append.mp hr with h1 | h1 <;> rcases List.mem_append.mp hs with h2 | h2
    · obtain ⟨x, hx, rfl⟩ := List.mem_map.mp h1
      obtain ⟨y, hy, rfl⟩ := List.mem_map.mp h2
      have hkxy : x.key ≠ y.key := by
        rwa [increaseF_key, increaseF_key] at hk
      have hrel := hv.2.2.2 x hx y hy hkxy
      rw [himg x hx, himg y hy]
      unfold disjointOrNested at hrel ⊢
      dsimp only
      rcases hrel with h | h | h | h
      · exact Or.inl (stepOpen_mono (by omega) h)
      · exact Or.inr (Or.inl (stepOpen_mono (by omega) h))
      · exact Or.inr (Or.inr (Or.inl
          ⟨stepOpen_mono (by omega) h.1, stepOpen_mono (by omega) h.2⟩))
      · exact Or.inr (Or.inr (Or.inr
          ⟨stepOpen_mono (by omega) h.1, stepOpen_mono (by omega) h.2⟩))
    · obtain ⟨x, hx, rfl⟩ := List.mem_map.mp h1
      simp at h2; subst h2
      rw [himg x hx]
      have g1 := @stepOpen_gap_incl p.rgt _ x.lft (by omega : (0:Int) < 2)
      have g2 := @stepOpen_gap_incl p.rgt _ x.rgt (by omega : (0:Int) < 2)
      have hmx : stepOpen p.rgt 2 true x.lft < stepOpen p.rgt 2 true x.rgt :=
        stepOpen_mono (by omega) (hv.2.1 x hx)
      unfold disjointOrNested
      dsimp only
      omega
    · obtain ⟨y, hy, rfl⟩ := List.mem_map.mp h2
      simp at h1; subst h1
      rw [himg y hy]
      have g1 := @stepOpen_gap_incl p.rgt _ y.lft (by omega : (0:Int) < 2)
      have g2 := @stepOpen_gap_incl p.rgt _ y.rgt (by omega : (0:Int) < 2)
      have hmy : stepOpen p.rgt 2 true y.lft < stepOpen p.rgt 2 true y.rgt :=
        stepOpen_mono (by omega) (hv.2.1 y hy)
      unfold disjointOrNested
      dsimp only
      omega
    · simp at h1 h2; subst h1; subst h2; exact absurd rfl hk

theorem delete_inv {t : Table} {nk : Nat} {t' : Table}
    (hd : delete_node t nk = some t') :
    ∃ n, getRow t nk = some n ∧
      t' = ((t.filter (fun r => !(r.key == nk))).map (shrinkF n.lft n.rgt)).filter
        (fun r => !(decide (n.lft < r.lft ∧ r.rgt < n.rgt))) := by
  cases hn : getRow t nk with
  | none => rw [delete_node, hn] at hd; simp at hd
  | some n =>
    rw [delete_node, hn] at hd
    simp only [Option.bind_eq_bind, Option.some_bind, Option.some.injEq] at hd
    exact ⟨n, rfl, hd.symm⟩

/-- Every survivor of a delete comes from a row outside the deleted subtree,
with both bounds moved by `stepClose`. -/
theorem delete_surv {t : Table} {nk : Nat} {n : Row} (hv : Valid t)
    (hn : getRow t nk = some n) :
    ∀ r' ∈ ((t.filter (fun r => !(r.key == nk))).map (shrinkF n.lft n.rgt)).filter
        (fun r => !(decide (n.lft < r.lft ∧ r.rgt < n.rgt))),
      ∃ r ∈ t, r.key ≠ n.key ∧ ¬ inSub n.lft n.rgt r ∧
        r' = ⟨r.key, stepClose n.lft n.rgt r.lft, stepClose n.lft n.rgt r.rgt⟩ ∧
        (r.lft ≤ n.lft - 1 ∨ n.rgt + 1 ≤ r.lft) ∧
        (r.rgt ≤ n.lft - 1 ∨ n.rgt + 1 ≤ r.rgt) := by
  intro r' hr'
  obtain ⟨hr'm, hpass⟩ := List.mem_filter.mp hr'
  obtain ⟨r, hrf, hshr⟩ := List.mem_map.mp hr'm
  obtain ⟨hrt, hkey⟩ := List.mem_filter.mp hrf
  have hkne : r.key ≠ n.key := by
    simp at hkey
    rw [(getRow_mem hn).2]
    exact hkey
  have hnm := (getRow_mem hn).1
  have hord := hv.2.1 r hrt
  have hnq : ¬ inSub n.lft n.rgt r := by
    intro hq
    have hrel := hv.2.2.2 r hrt n hnm hkne
    have hon := hv.2.1 n hnm
    obtain ⟨hq1, hq2⟩ := hq
    have hint : n.lft < r.lft ∧ r.rgt < n.rgt := by
      rcases hrel with h | h | h | h <;> omega
    have hsr : shrinkF n.lft n.rgt r = r := by
      unfold shrinkF; rw [if_neg (by omega)]
    rw [hsr] at hshr
    rw [← hshr] at hpass
    simp at hpass
    omega
  obtain ⟨hdl, hdr⟩ := bounds_dom hv hnm hrt hnq
  exact ⟨r, hrt, hkne, hnq, by rw [← hshr, shrinkF_eq _ _ _ hord], hdl, hdr⟩

theorem delete_preserves {t : Table} {nk : Nat} {t' : Table}
    (hv : Valid t) (hd : delete_node t nk = some t') : Valid t' := by
  obtain ⟨n, hn, ht'⟩ := delete_inv hd
  subst ht'
  have hnm := (getRow_mem hn).1
  have hnl : 0 < n.lft := hv.1 n hnm
  have hw : n.lft ≤ n.rgt := le_of_lt (hv.2.1 n hnm)
  have hsurv := delete_surv hv hn
  refine ⟨?_, ?_, ?_, ?_⟩
  · intro r' hr'
    obtain ⟨r, hrt, _, _, he, hdl, hdr⟩ := hsurv r' hr'
    rw [he]
    exact stepClose_pos (hv.1 r hrt) hnl hw
  · intro r' hr'
    obtain ⟨r, hrt, _, _, he, hdl, hdr⟩ := hsurv r' hr'
    rw [he]
    exact stepClose_mono hdl hdr (hv.2.1 r hrt) hw
  · have s1 := List.filter_sublist
      (l := (t.filter (fun r => !(r.key == nk))).map (shrinkF n.lft n.rgt))
      (p := fun r => !(decide (n.lft < r.lft ∧ r.rgt < n.rgt)))
    have s2 := List.filter_sublist (l := t) (p := fun r => !(r.key == nk))
    have hkeq : ((t.filter (fun r => !(r.key == nk))).map (shrinkF n.lft n.rgt)).map Row.key
        = (t.filter (fun r => !(r.key == nk))).map Row.key := by
      rw [List.map_map]
      exact List.map_congr_left (fun r _ => shrinkF_key _ _ r)
    have hsub : List.Sublist ((((t.filter (fun r => !(r.key == nk))).map
        (shrinkF n.lft n.rgt)).filter
        (fun r => !(decide (n.lft < r.lft ∧ r.rgt < n.rgt)))).map Row.key)
        (t.map Row.key) := by
      have h1 := s1.map Row.key
      rw [hkeq] at h1
      exact h1.trans (s2.map Row.key)
    exact List.Nodup.sublist hsub hv.2.2.1
  · intro r' hr' s' hs' hk
    obtain ⟨r, hrt, _, _, her, hdlr, hdrr⟩ := hsurv r' hr'
    obtain ⟨s, hst, _, _, hes, hdls, hdrs⟩ := hsurv s' hs'
    have hkrs : r.key ≠ s.key := by
      rw [her, hes] at hk
      exact hk
    have hrel := hv.2.2.2 r hrt s hst hkrs
    rw [her, hes]
    unfold disjointOrNested at hrel ⊢
    dsimp only
    rcases hrel with h | h | h | h
    · exact Or.inl (stepClose_mono hdrr hdls h hw)
    · exact Or.inr (Or.inl (stepClose_mono hdrs hdlr h hw))
    · exact Or.inr (Or.inr (Or.inl
        ⟨stepClose_mono hdlr hdls h.1 hw, stepClose_mono hdrs hdrr h.2 hw⟩))
    · exact Or.inr (Or.inr (Or.inr
        ⟨stepClose_mono hdls hdlr h.1 hw, stepClose_mono hdrr hdrs h.2 hw⟩))

/-- Every reachable table satisfies the forest invariant. -/
theorem reach_valid {t : Table} (h : Reach t) : Valid t := by
  induction h with
  | empty => exact ⟨by simp, by simp, by simp, by simp⟩
  | create_step t k parent t' h hfresh hc ih =>
      cases parent with
      | none => exact create_root_preserves ih hfresh hc
      | some pk => exact create_child_preserves ih hfresh hc
  | delete_step t nk t' h hd ih => exact delete_preserves ih hd
  | move_before_step t nk tk t' h hm ih => exact move_before_preserves ih hm
  | move_after_step t nk tk t' h hm ih => exact move_after_preserves ih hm
  | move_inside_step t nk tk t' h hm ih => exact move_inside_preserves ih hm

/-! ## C1: the nesting invariant on reachable forests -/

/-- C1: in every forest reachable from the empty store by create (with or
without parent), delete and accepted moves, every pair of rows with distinct
keys satisfies exactly one of: disjoint left, disjoint right, strictly
containing, strictly contained. -/
theorem nesting_invariant_reachable {t : Table} (h : Reach t) :
    ∀ a ∈ t, ∀ b ∈ t, a.key ≠ b.key → exactlyOneNested a b := by
  have hv := reach_valid h
  intro a ha b hb hk
  have hrel := hv.2.2.2 a ha b hb hk
  have h1 := hv.2.1 a ha
  have h2 := hv.2.1 b hb
  unfold disjointOrNested at hrel
  unfold exactlyOneNested
  omega

/-- Witness for C1: the scenario forest is reachable by six creates, and the
pair (B, C) there is disjoint in exactly one way. -/
theorem nesting_invariant_reachable_witness :
    Reach specScenario ∧ exactlyOneNested ⟨2, 2, 3⟩ ⟨3, 4, 11⟩ := by
  have h1 : Reach [(⟨1, 1, 2⟩ : Row)] :=
    Reach.create_step [] 1 none _ Reach.empty (by simp) (by decide)
  have h2 : Reach [(⟨1, 1, 4⟩ : Row), ⟨2, 2, 3⟩] :=
    Reach.create_step _ 2 (some 1) _ h1 (by decide) (by decide)
  have h3 : Reach [(⟨1, 1, 6⟩ : Row), ⟨2, 2, 3⟩, ⟨3, 4, 5⟩] :=
    Reach.create_step _ 3 (some 1) _ h2 (by decide) (by decide)
  have h4 : Reach [(⟨1, 1, 8⟩ : Row), ⟨2, 2, 3⟩, ⟨3, 4, 7⟩, ⟨4, 5, 6⟩] :=
    Reach.create_step _ 4 (some 3) _ h3 (by decide) (by decide)
  have h5 : Reach [(⟨1, 1, 10⟩ : Row), ⟨2, 2, 3⟩, ⟨3, 4, 9⟩, ⟨4, 5, 6⟩, ⟨5, 7, 8⟩] :=
    Reach.create_step _ 5 (some 3) _ h4 (by decide) (by decide)
  have h6 : Reach specScenario :=
    Reach.create_step _ 6 (some 3) _ h5 (by decide) (by decide)
  exact ⟨h6, nesting_invariant_reachable h6 ⟨2, 2, 3⟩ (by decide) ⟨3, 4, 11⟩
    (by decide) (by decide)⟩

/-! ## C7: no-op moves leave the table unchanged -/

theorem shiftVal_id_incl {nl nr v : Int}
    (hd : v ≤ nl - 1 ∨ nr + 1 ≤ v) (hw : nl ≤ nr) :
    shiftVal nl nr nl true v = v := by
  rcases hd with h | h
  · simp [shiftVal, stepClose, stepOpen, show ¬ nr < v by omega, show ¬ nl ≤ v by omega]
  · simp [shiftVal, stepClose, stepOpen, show nr < v by omega,
      show nl ≤ v - (nr - nl + 1) by omega]

theorem shiftVal_id_excl {nl nr v : Int}
    (hd : v ≤ nl - 1 ∨ nr + 1 ≤ v) (hw : nl ≤ nr) :
    shiftVal nl nr (nl - 1) false v = v := by
  rcases hd with h | h
  · simp [shiftVal, stepClose, stepOpen, show ¬ nr < v by omega, show ¬ nl - 1 < v by omega]
  · simp [shiftVal, stepClose, stepOpen, show nr < v by omega,
      show nl - 1 < v - (nr - nl + 1) by omega]

/-- C7: moving a node before its immediate successor, or after its immediate
predecessor, is a no-op — the whole table comes back unchanged. -/
theorem move_noop_identity {t : Table} {nk tk : Nat} {n tgt : Row}
    (hv : Valid t) (hn : getRow t nk = some n) (ht : getRow t tk = some tgt) :
    (n.rgt + 1 = tgt.lft → move_before t nk tk = some (.ok t)) ∧
    (tgt.rgt + 1 = n.lft → move_after t nk tk = some (.ok t)) := by
  have hnm := (getRow_mem hn).1
  have htm := (getRow_mem ht).1
  have hon := hv.2.1 n hnm
  have hot := hv.2.1 tgt htm
  have hnl : 0 < n.lft := hv.1 n hnm
  have h0t : 0 < tgt.lft := hv.1 tgt htm
  have hw : n.lft ≤ n.rgt := le_of_lt hon
  constructor
  · intro hb
    have hg : ¬ (n.lft ≤ tgt.lft ∧ tgt.rgt ≤ n.rgt) := by omega
    rw [move_before_eq hv hn ht hg]
    have hpe : stepClose n.lft n.rgt tgt.lft = n.lft := by
      unfold stepClose
      rw [if_pos (by omega)]
      omega
    rw [hpe]
    have hpt : ∀ r ∈ t, moveRowF n.lft n.rgt n.lft true (n.lft - n.lft) r = r := by
      intro r hr
      by_cases hq : inSub n.lft n.rgt r
      · rw [moveRowF_quar _ _ _ _ _ _ hq (hv.1 r hr) (hv.2.1 r hr) hnl]
        have : r.lft - (n.lft - n.lft) = r.lft := by omega
        rw [this]
        have : r.rgt - (n.lft - n.lft) = r.rgt := by omega
        rw [this]
      · obtain ⟨hdl, hdr⟩ := bounds_dom hv hnm hr hq
        rw [moveRowF_nonquar _ _ _ _ _ _ hq (hv.2.1 r hr) hdl hdr
          (hv.1 r hr) hnl hw (fun hif => by cases hif)]
        rw [shiftVal_id_incl hdl hw, shiftVal_id_incl hdr hw]
    rw [List.map_congr_left hpt]
    simp
  · intro hb
    have hg : ¬ (n.lft ≤ tgt.lft ∧ tgt.rgt ≤ n.rgt) := by omega
    rw [move_after_eq hv hn ht hg]
    have hpe : stepClose n.lft n.rgt tgt.rgt = n.lft - 1 := by
      unfold stepClose
      rw [if_neg (by omega)]
      omega
    rw [hpe]
    have hde : n.lft - (n.lft - 1) - 1 = 0 := by omega
    rw [hde]
    have hpt : ∀ r ∈ t, moveRowF n.lft n.rgt (n.lft - 1) false 0 r = r := by
      intro r hr
      by_cases hq : inSub n.lft n.rgt r
      · rw [moveRowF_quar _ _ _ _ _ _ hq (hv.1 r hr) (hv.2.1 r hr) (by omega)]
        have : r.lft - 0 = r.lft := by omega
        rw [this]
        have : r.rgt - 0 = r.rgt := by omega
        rw [this]
      · obtain ⟨hdl, hdr⟩ := bounds_dom hv hnm hr hq
        rw [moveRowF_nonquar _ _ _ _ _ _ hq (hv.2.1 r hr) hdl hdr
          (hv.1 r hr) hnl hw (fun _ => by
            have hne2 : r.lft ≠ tgt.rgt := lft_ne_rgt hv hr htm
            have : stepClose n.lft n.rgt r.lft ≠ n.lft - 1 := by
              unfold stepClose; split_ifs <;> omega
            exact this)]
        rw [shiftVal_id_excl hdl hw, shiftVal_id_excl hdr hw]
    rw [List.map_congr_left hpt]
    simp

/-- Witness for C7 in the scenario forest: moving D before its successor E,
and E after its predecessor D, both leave every bound unchanged. -/
theorem move_noop_identity_witness :
    move_before specScenario 4 5 = some (.ok specScenario) ∧
    move_after specScenario 5 4 = some (.ok specScenario) := by
  constructor
  · exact (move_noop_identity (by decide)
      (by decide : getRow specScenario 4 = some ⟨4, 5, 6⟩)
      (by decide : getRow specScenario 5 = some ⟨5, 7, 8⟩)).1 (by decide)
  · exact (move_noop_identity (by decide)
      (by decide : getRow specScenario 5 = some ⟨5, 7, 8⟩)
      (by decide : getRow specScenario 4 = some ⟨4, 5, 6⟩)).2 (by decide)

/-! ## C5: creating a child node -/

/-- C5: with parent `P` and `R = P.rgt`, creation adds `+2` to `rgt` for
every row with `rgt >= R` and `+2` to `lft` for every row with `lft >= R`
(one conditional bulk update over the table, each row rewritten exactly
once), and appends the new node with bounds `(R, R+1)`, which makes it P's
right-most child: P becomes `(P.lft, R+2)` with `P.lft < R`. -/
theorem create_child_spec {t : Table} (k pk : Nat) (p : Row)
    (hv : Valid t) (hp : getRow t pk = some p) :
    ∃ t' p', create t k (some pk) = some t' ∧
      t' = (t.map (fun r =>
        ⟨r.key, if p.rgt ≤ r.lft then r.lft + 2 else r.lft,
          if p.rgt ≤ r.rgt then r.rgt + 2 else r.rgt⟩)) ++ [⟨k, p.rgt, p.rgt + 1⟩] ∧
      getRow t' pk = some p' ∧ p'.lft = p.lft ∧ p'.rgt = p.rgt + 2 ∧
      p'.lft < p.rgt := by
  have hpm := (getRow_mem hp).1
  have hop : p.lft < p.rgt := hv.2.1 p hpm
  have hmap : t.map (increaseF p.rgt 2 true) = t.map (fun r =>
      ⟨r.key, if p.rgt ≤ r.lft then r.lft + 2 else r.lft,
        if p.rgt ≤ r.rgt then r.rgt + 2 else r.rgt⟩) := by
    apply List.map_congr_left
    intro r hr
    have hor := hv.2.1 r hr
    by_cases h1 : p.rgt ≤ r.lft <;> by_cases h2 : p.rgt ≤ r.rgt <;>
      simp [increaseF, h1, h2, Row.mk.injEq] <;> omega
  have hpe : increaseF p.rgt 2 true p = ⟨p.key, p.lft, p.rgt + 2⟩ := by
    simp [increaseF, Row.mk.injEq, show ¬ p.rgt ≤ p.lft by omega]
  have hc : create t k (some pk) =
      some ((t.map (increaseF p.rgt 2 true)) ++ [⟨k, p.rgt, p.rgt + 1⟩]) := by
    rw [create, hp]
    rfl
  refine ⟨(t.map (increaseF p.rgt 2 true)) ++ [⟨k, p.rgt, p.rgt + 1⟩],
    ⟨p.key, p.lft, p.rgt + 2⟩, hc, by rw [hmap], ?_, rfl, rfl, hop⟩
  have hg1 : getRow (t.map (increaseF p.rgt 2 true)) pk =
      some (⟨p.key, p.lft, p.rgt + 2⟩ : Row) := by
    rw [getRow_map (increaseF_key _ _ _), hp]
    simp [hpe]
  unfold getRow at hg1 ⊢
  rw [List.find?_append, hg1]
  rfl

/-- Witness for C5: creating a child of C in the scenario forest updates C
to (4, 13) and appends the node (11, 12). -/
theorem create_child_spec_witness :
    ∃ t' p', create specScenario 7 (some 3) = some t' ∧ getRow t' 3 = some p' ∧
      p'.lft = 4 ∧ p'.rgt = 13 := by
  obtain ⟨t', p', h1, _h2, h3, h4, h5, _h6⟩ :=
    create_child_spec 7 3 ⟨3, 4, 11⟩ (by decide)
      (by decide : getRow specScenario 3 = some ⟨3, 4, 11⟩)
  exact ⟨t', p', h1, h3, by rw [h4], by rw [h5]; rfl⟩

/-! ## C3: accepted moves place the subtree at the destination -/

/-- Two pairs of rows stand in the same nesting relation: each of the four
cases of the nesting law holds of `(a, b)` iff it holds of `(a1, b1)`. -/
def SameRel (a b a1 b1 : Row) : Prop :=
  (a.rgt < b.lft ↔ a1.rgt < b1.lft) ∧ (b.rgt < a.lft ↔ b1.rgt < a1.lft) ∧
  ((a.lft < b.lft ∧ b.rgt < a.rgt) ↔ (a1.lft < b1.lft ∧ b1.rgt < a1.rgt)) ∧
  ((b.lft < a.lft ∧ a.rgt < b.rgt) ↔ (b1.lft < a1.lft ∧ a1.rgt < b1.rgt))

theorem shiftVal_lt_iff {nl nr pos a b : Int} {inc : Bool}
    (hda : a ≤ nl - 1 ∨ nr + 1 ≤ a) (hdb : b ≤ nl - 1 ∨ nr + 1 ≤ b)
    (hw : nl ≤ nr) :
    a < b ↔ shiftVal nl nr pos inc a < shiftVal nl nr pos inc b := by
  constructor
  · exact fun h => shiftVal_mono hda hdb h hw
  · intro h
    by_contra hc
    rcases lt_or_eq_of_le (not_lt.mp hc) with h2 | h2
    · exact lt_asymm h (shiftVal_mono hdb hda h2 hw)
    · rw [h2] at h
      exact lt_irrefl _ h

/-- After a move, the rows of the quarantined subtree sit at a common offset
and every pair of rows outside the subtree keeps its nesting relation. -/
theorem moveRowF_table_props {t : Table} {n : Row} {pos quarLo : Int} {inc : Bool}
    (hv : Valid t) (hn : n ∈ t) (hpos : 0 < pos)
    (hne : inc = false → ∀ r ∈ t, ¬ inSub n.lft n.rgt r →
      stepClose n.lft n.rgt r.lft ≠ pos) :
    (∀ r ∈ t, inSub n.lft n.rgt r →
      getRow (t.map (moveRowF n.lft n.rgt pos inc (n.lft - quarLo))) r.key =
        some ⟨r.key, r.lft - (n.lft - quarLo), r.rgt - (n.lft - quarLo)⟩) ∧
    (∀ r ∈ t, ∀ s ∈ t, ¬ inSub n.lft n.rgt r → ¬ inSub n.lft n.rgt s →
      ∀ r1 s1,
        getRow (t.map (moveRowF n.lft n.rgt pos inc (n.lft - quarLo))) r.key = some r1 →
        getRow (t.map (moveRowF n.lft n.rgt pos inc (n.lft - quarLo))) s.key = some s1 →
        SameRel r s r1 s1) := by
  have hw : n.lft ≤ n.rgt := le_of_lt (hv.2.1 n hn)
  have himg := @moveRowF_img _ _ _ quarLo _ hv hn hpos hne
  have hget : ∀ r ∈ t,
      getRow (t.map (moveRowF n.lft n.rgt pos inc (n.lft - quarLo))) r.key =
        some (moveRowF n.lft n.rgt pos inc (n.lft - quarLo) r) := by
    intro r hr
    rw [getRow_map (moveRowF_key _ _ _ _ _), getRow_self hv hr]
    rfl
  constructor
  · intro r hr hq
    rcases himg r hr with ⟨_, he⟩ | ⟨hq2, _⟩
    · rw [hget r hr, he]
    · exact absurd hq hq2
  · intro r hr s hs hqr hqs r1 s1 h1 h2
    rw [hget r hr] at h1
    rw [hget s hs] at h2
    have hr1 : r1 = moveRowF n.lft n.rgt pos inc (n.lft - quarLo) r :=
      (Option.some.inj h1).symm
    have hs1 : s1 = moveRowF n.lft n.rgt pos inc (n.lft - quarLo) s :=
      (Option.some.inj h2).symm
    rcases himg r hr with ⟨hq2, _⟩ | ⟨_, her, hdlr, hdrr⟩
    · exact absurd hq2 hqr
    rcases himg s hs with ⟨hq2, _⟩ | ⟨_, hes, hdls, hdrs⟩
    · exact absurd hq2 hqs
    rw [hr1, her, hs1, hes]
    unfold SameRel
    dsimp only
    exact ⟨shiftVal_lt_iff hdrr hdls hw, shiftVal_lt_iff hdrs hdlr hw,
      and_congr (shiftVal_lt_iff hdlr hdls hw) (shiftVal_lt_iff hdrs hdrr hw),
      and_congr (shiftVal_lt_iff hdls hdlr hw) (shiftVal_lt_iff hdrr hdrs hw)⟩

/-- C3: for every accepted move (target not inside the mover's subtree):
`move_before` leaves the mover immediately left-adjacent to the target,
`move_after` immediately right-adjacent, and `move_inside` as the target's
right-most child; in all three cases the rows of the mover's subtree are
shifted by one common offset and every pair of other rows keeps its nesting
relation. -/
theorem moves_place_subtree {t : Table} {nk tk : Nat} {n tgt : Row}
    (hv : Valid t) (hn : getRow t nk = some n) (ht : getRow t tk = some tgt)
    (hg : ¬ (n.lft ≤ tgt.lft ∧ tgt.rgt ≤ n.rgt)) :
    (∃ t1, move_before t nk tk = some (.ok t1) ∧
      (∃ n1 tg1, getRow t1 nk = some n1 ∧ getRow t1 tk = some tg1 ∧
        n1.rgt + 1 = tg1.lft) ∧
      (∃ d, ∀ r ∈ t, inSub n.lft n.rgt r →
        getRow t1 r.key = some ⟨r.key, r.lft + d, r.rgt + d⟩) ∧
      (∀ r ∈ t, ∀ s ∈ t, ¬ inSub n.lft n.rgt r → ¬ inSub n.lft n.rgt s →
        ∀ r1 s1, getRow t1 r.key = some r1 → getRow t1 s.key = some s1 →
          SameRel r s r1 s1)) ∧
    (∃ t2, move_after t nk tk = some (.ok t2) ∧
      (∃ n2 tg2, getRow t2 nk = some n2 ∧ getRow t2 tk = some tg2 ∧
        tg2.rgt + 1 = n2.lft) ∧
      (∃ d, ∀ r ∈ t, inSub n.lft n.rgt r →
        getRow t2 r.key = some ⟨r.key, r.lft + d, r.rgt + d⟩) ∧
      (∀ r ∈ t, ∀ s ∈ t, ¬ inSub n.lft n.rgt r → ¬ inSub n.lft n.rgt s →
        ∀ r1 s1, getRow t2 r.key = some r1 → getRow t2 s.key = some s1 →
          SameRel r s r1 s1)) ∧
    (∃ t3, move_inside t nk tk = some (.ok t3) ∧
      (∃ n3 tg3, getRow t3 nk = some n3 ∧ getRow t3 tk = some tg3 ∧
        n3.rgt + 1 = tg3.rgt ∧ tg3.lft < n3.lft) ∧
      (∃ d, ∀ r ∈ t, inSub n.lft n.rgt r →
        getRow t3 r.key = some ⟨r.key, r.lft + d, r.rgt + d⟩) ∧
      (∀ r ∈ t, ∀ s ∈ t, ¬ inSub n.lft n.rgt r → ¬ inSub n.lft n.rgt s →
        ∀ r1 s1, getRow t3 r.key = some r1 → getRow t3 s.key = some s1 →
          SameRel r s r1 s1)) := by
  have hnm := (getRow_mem hn).1
  have htm := (getRow_mem ht).1
  have hon := hv.2.1 n hnm
  have hot := hv.2.1 tgt htm
  have hnl := hv.1 n hnm
  have h0t := hv.1 tgt htm
  have hw : n.lft ≤ n.rgt := le_of_lt hon
  have hgg : ¬ inSub n.lft n.rgt tgt := hg
  obtain ⟨hdlt, hdrt⟩ := bounds_dom hv hnm htm hgg
  have hqn : inSub n.lft n.rgt n := ⟨le_refl _, le_refl _⟩
  have h0tr : 0 < tgt.rgt := by omega
  refine ⟨?_, ?_, ?_⟩
  · -- move_before
    have hposB : 0 < stepClose n.lft n.rgt tgt.lft := stepClose_pos h0t hnl hw
    have htp := @moveRowF_table_props _ _ (stepClose n.lft n.rgt tgt.lft)
      (stepClose n.lft n.rgt tgt.lft) true
      hv hnm hposB (fun hif => by cases hif)
    refine ⟨_, move_before_eq hv hn ht hg, ?_, ?_, htp.2⟩
    · have hgn : getRow (t.map (moveRowF n.lft n.rgt (stepClose n.lft n.rgt tgt.lft)
          true (n.lft - stepClose n.lft n.rgt tgt.lft))) nk =
          some (moveRowF n.lft n.rgt (stepClose n.lft n.rgt tgt.lft)
            true (n.lft - stepClose n.lft n.rgt tgt.lft) n) := by
        rw [getRow_map (moveRowF_key _ _ _ _ _), hn]
        rfl
      have hgt : getRow (t.map (moveRowF n.lft n.rgt (stepClose n.lft n.rgt tgt.lft)
          true (n.lft - stepClose n.lft n.rgt tgt.lft))) tk =
          some (moveRowF n.lft n.rgt (stepClose n.lft n.rgt tgt.lft)
            true (n.lft - stepClose n.lft n.rgt tgt.lft) tgt) := by
        rw [getRow_map (moveRowF_key _ _ _ _ _), ht]
        rfl
      refine ⟨_, _, hgn, hgt, ?_⟩
      rw [moveRowF_quar _ _ _ _ _ _ hqn hnl hon hposB,
        moveRowF_nonquar _ _ _ _ _ _ hgg hot hdlt hdrt h0t hnl hw
          (fun hif => by cases hif)]
      have e1 : shiftVal n.lft n.rgt (stepClose n.lft n.rgt tgt.lft) true tgt.lft =
          stepClose n.lft n.rgt tgt.lft + (n.rgt - n.lft + 1) := by
        simp [shiftVal, stepOpen]
      dsimp only
      rw [e1]
      omega
    · refine ⟨stepClose n.lft n.rgt tgt.lft - n.lft, fun r hr hq => ?_⟩
      have h := htp.1 r hr hq
      have e1 : r.lft - (n.lft - stepClose n.lft n.rgt tgt.lft) =
          r.lft + (stepClose n.lft n.rgt tgt.lft - n.lft) := by ring
      have e2 : r.rgt - (n.lft - stepClose n.lft n.rgt tgt.lft) =
          r.rgt + (stepClose n.lft n.rgt tgt.lft - n.lft) := by ring
      rw [e1, e2] at h
      exact h
  · -- move_after
    have hposA : 0 < stepClose n.lft n.rgt tgt.rgt := stepClose_pos h0tr hnl hw
    have hneA : ∀ r ∈ t, ¬ inSub n.lft n.rgt r →
        stepClose n.lft n.rgt r.lft ≠ stepClose n.lft n.rgt tgt.rgt :=
      fun r hr hnq => stepClose_ne (bounds_dom hv hnm hr hnq).1 hdrt
        (lft_ne_rgt hv hr htm) hw
    have htp := @moveRowF_table_props _ _ (stepClose n.lft n.rgt tgt.rgt)
      (stepClose n.lft n.rgt tgt.rgt + 1) false
      hv hnm hposA (fun _ => hneA)
    have hchar := move_after_eq hv hn ht hg
    have hdeq : n.lft - stepClose n.lft n.rgt tgt.rgt - 1 =
        n.lft - (stepClose n.lft n.rgt tgt.rgt + 1) := by ring
    rw [hdeq] at hchar
    refine ⟨_, hchar, ?_, ?_, htp.2⟩
    · have hgn : getRow (t.map (moveRowF n.lft n.rgt (stepClose n.lft n.rgt tgt.rgt)
          false (n.lft - (stepClose n.lft n.rgt tgt.rgt + 1)))) nk =
          some (moveRowF n.lft n.rgt (stepClose n.lft n.rgt tgt.rgt)
            false (n.lft - (stepClose n.lft n.rgt tgt.rgt + 1)) n) := by
        rw [getRow_map (moveRowF_key _ _ _ _ _), hn]
        rfl
      have hgt : getRow (t.map (moveRowF n.lft n.rgt (stepClose n.lft n.rgt tgt.rgt)
          false (n.lft - (stepClose n.lft n.rgt tgt.rgt + 1)))) tk =
          some (moveRowF n.lft n.rgt (stepClose n.lft n.rgt tgt.rgt)
            false (n.lft - (stepClose n.lft n.rgt tgt.rgt + 1)) tgt) := by
        rw [getRow_map (moveRowF_key _ _ _ _ _), ht]
        rfl
      refine ⟨_, _, hgn, hgt, ?_⟩
      rw [moveRowF_quar _ _ _ _ _ _ hqn hnl hon hposA,
        moveRowF_nonquar _ _ _ _ _ _ hgg hot hdlt hdrt h0t hnl hw
          (fun _ => stepClose_ne hdlt hdrt (ne_of_lt hot) hw)]
      have e1 : shiftVal n.lft n.rgt (stepClose n.lft n.rgt tgt.rgt) false tgt.rgt =
          stepClose n.lft n.rgt tgt.rgt := by
        simp [shiftVal, stepOpen]
      dsimp only
      rw [e1]
      omega
    · refine ⟨stepClose n.lft n.rgt tgt.rgt + 1 - n.lft, fun r hr hq => ?_⟩
      have h := htp.1 r hr hq
      have e1 : r.lft - (n.lft - (stepClose n.lft n.rgt tgt.rgt + 1)) =
          r.lft + (stepClose n.lft n.rgt tgt.rgt + 1 - n.lft) := by ring
      have e2 : r.rgt - (n.lft - (stepClose n.lft n.rgt tgt.rgt + 1)) =
          r.rgt + (stepClose n.lft n.rgt tgt.rgt + 1 - n.lft) := by ring
      rw [e1, e2] at h
      exact h
  · -- move_inside
    have hposA : 0 < stepClose n.lft n.rgt tgt.rgt := stepClose_pos h0tr hnl hw
    have htp := @moveRowF_table_props _ _ (stepClose n.lft n.rgt tgt.rgt)
      (stepClose n.lft n.rgt tgt.rgt) true
      hv hnm hposA (fun hif => by cases hif)
    refine ⟨_, move_inside_eq hv hn ht hg, ?_, ?_, htp.2⟩
    · have hgn : getRow (t.map (moveRowF n.lft n.rgt (stepClose n.lft n.rgt tgt.rgt)
          true (n.lft - stepClose n.lft n.rgt tgt.rgt))) nk =
          some (moveRowF n.lft n.rgt (stepClose n.lft n.rgt tgt.rgt)
            true (n.lft - stepClose n.lft n.rgt tgt.rgt) n) := by
        rw [getRow_map (moveRowF_key _ _ _ _ _), hn]
        rfl
      have hgt : getRow (t.map (moveRowF n.lft n.rgt (stepClose n.lft n.rgt tgt.rgt)
          true (n.lft - stepClose n.lft n.rgt tgt.rgt))) tk =
          some (moveRowF n.lft n.rgt (stepClose n.lft n.rgt tgt.rgt)
            true (n.lft - stepClose n.lft n.rgt tgt.rgt) tgt) := by
        rw [getRow_map (moveRowF_key _ _ _ _ _), ht]
        rfl
      refine ⟨_, _, hgn, hgt, ?_⟩
      rw [moveRowF_quar _ _ _ _ _ _ hqn hnl hon hposA,
        moveRowF_nonquar _ _ _ _ _ _ hgg hot hdlt hdrt h0t hnl hw
          (fun hif => by cases hif)]
      have hltc : stepClose n.lft n.rgt tgt.lft < stepClose n.lft n.rgt tgt.rgt :=
        stepClose_mono hdlt hdrt hot hw
      have e1 : shiftVal n.lft n.rgt (stepClose n.lft n.rgt tgt.rgt) true tgt.rgt =
          stepClose n.lft n.rgt tgt.rgt + (n.rgt - n.lft + 1) := by
        simp [shiftVal, stepOpen]
      have e2 : shiftVal n.lft n.rgt (stepClose n.lft n.rgt tgt.rgt) true tgt.lft =
          stepClose n.lft n.rgt tgt.lft := by
        simp [shiftVal, stepOpen, show ¬ stepClose n.lft n.rgt tgt.rgt ≤
          stepClose n.lft n.rgt tgt.lft by omega]
      dsimp only
      rw [e1, e2]
      constructor <;> omega
    · refine ⟨stepClose n.lft n.rgt tgt.rgt - n.lft, fun r hr hq => ?_⟩
      have h := htp.1 r hr hq
      have e1 : r.lft - (n.lft - stepClose n.lft n.rgt tgt.rgt) =
          r.lft + (stepClose n.lft n.rgt tgt.rgt - n.lft) := by ring
      have e2 : r.rgt - (n.lft - stepClose n.lft n.rgt tgt.rgt) =
          r.rgt + (stepClose n.lft n.rgt tgt.rgt - n.lft) := by ring
      rw [e1, e2] at h
      exact h

/-- Witness for C3: moving E relative to D in the scenario forest; the
adjacency facts hold in each resulting table. -/
theorem moves_place_subtree_witness :
    (∃ t1, move_before specScenario 5 4 = some (.ok t1) ∧
      ∃ n1 tg1, getRow t1 5 = some n1 ∧ getRow t1 4 = some tg1 ∧
        n1.rgt + 1 = tg1.lft) ∧
    (∃ t3, move_inside specScenario 4 5 = some (.ok t3) ∧
      ∃ n3 tg3, getRow t3 4 = some n3 ∧ getRow t3 5 = some tg3 ∧
        n3.rgt + 1 = tg3.rgt ∧ tg3.lft < n3.lft) := by
  constructor
  · obtain ⟨⟨t1, h1, ⟨n1, tg1, ha, hb, hc⟩, _, _⟩, _, _⟩ :=
      moves_place_subtree (by decide)
        (by decide : getRow specScenario 5 = some ⟨5, 7, 8⟩)
        (by decide : getRow specScenario 4 = some ⟨4, 5, 6⟩) (by decide)
    exact ⟨t1, h1, n1, tg1, ha, hb, hc⟩
  · obtain ⟨_, _, ⟨t3, h3, ⟨n3, tg3, ha, hb, hc⟩, _, _⟩⟩ :=
      moves_place_subtree (by decide)
        (by decide : getRow specScenario 4 = some ⟨4, 5, 6⟩)
        (by decide : getRow specScenario 5 = some ⟨5, 7, 8⟩) (by decide)
    exact ⟨t3, h3, n3, tg3, ha, hb, hc⟩

/-! ## C9: the path-to-root queries -/

/-- Insertion into a list sorted by `lft` (models the `ORDER BY lft ASC`
of the `ancestors` relationship). -/
def insertByLft (r : Row) : List Row → List Row
  | [] => [r]
  | s :: rest => if r.lft ≤ s.lft then r :: s :: rest else s :: insertByLft r rest

/-- Sort by `lft` ascending. -/
def sortByLft : List Row → List Row
  | [] => []
  | r :: rest => insertByLft r (sortByLft rest)

/-- The `ancestors` relationship of the mixin: every row with
`lft < node.lft` and `rgt > node.rgt`, ordered by `lft` ascending. -/
def ancestors_rel (t : Table) (n : Row) : List Row :=
  sortByLft (t.filter (fun r => decide (r.lft < n.lft ∧ n.rgt < r.rgt)))

/-- `get_ancestors`: the query filters the aliased self on
`ealias.left BETWEEN cls.left AND cls.right` and pins the alias to the
queried node, so it returns every row X with `X.lft <= self.lft <= X.rgt`,
with no ORDER BY (table order). -/
def get_ancestors (t : Table) (n : Row) : List Row :=
  t.filter (fun r => decide (r.lft ≤ n.lft ∧ n.lft ≤ r.rgt))

theorem mem_insertByLft {r s : Row} : ∀ {l : List Row},
    s ∈ insertByLft r l ↔ s = r ∨ s ∈ l
  | [] => by simp [insertByLft]
  | u :: rest => by
      unfold insertByLft
      split_ifs with hc
      · simp
      · rw [List.mem_cons, mem_insertByLft, List.mem_cons]
        tauto

theorem pairwise_insertByLft {r : Row} {l : List Row}
    (h : List.Pairwise (fun a b => a.lft ≤ b.lft) l) :
    List.Pairwise (fun a b => a.lft ≤ b.lft) (insertByLft r l) := by
  induction l with
  | nil => simp [insertByLft]
  | cons s rest ih =>
    rw [List.pairwise_cons] at h
    obtain ⟨h1, h2⟩ := h
    unfold insertByLft
    split_ifs with hc
    · rw [List.pairwise_cons]
      refine ⟨?_, List.pairwise_cons.mpr ⟨h1, h2⟩⟩
      intro b hb
      rcases List.mem_cons.mp hb with rfl | hb
      · exact hc
      · exact le_trans hc (h1 b hb)
    · rw [List.pairwise_cons]
      refine ⟨?_, ih h2⟩
      intro b hb
      rcases mem_insertByLft.mp hb with rfl | hb
      · omega
      · exact h1 b hb

theorem mem_sortByLft {s : Row} : ∀ {l : List Row}, s ∈ sortByLft l ↔ s ∈ l
  | [] => Iff.rfl
  | u :: rest => by
      unfold sortByLft
      rw [mem_insertByLft, List.mem_cons, mem_sortByLft]

theorem pairwise_sortByLft : ∀ (l : List Row),
    List.Pairwise (fun a b => a.lft ≤ b.lft) (sortByLft l)
  | [] => List.Pairwise.nil
  | u :: rest => pairwise_insertByLft (pairwise_sortByLft rest)

/-- C9 as amended: `get_ancestors` returns exactly the rows whose interval
inclusively contains the queried node's interval — the node itself is always
included, there is no inclusive option — in table order; the `ancestors`
relationship returns exactly the strict containers, ordered by `lft`
ascending (no descending option). -/
theorem ancestors_query_spec {t : Table} {n : Row} (hv : Valid t) (hn : n ∈ t) :
    (∀ r, r ∈ get_ancestors t n ↔ r ∈ t ∧ r.lft ≤ n.lft ∧ n.rgt ≤ r.rgt) ∧
    n ∈ get_ancestors t n ∧
    (∀ r, r ∈ ancestors_rel t n ↔ r ∈ t ∧ r.lft < n.lft ∧ n.rgt < r.rgt) ∧
    List.Pairwise (fun a b => a.lft ≤ b.lft) (ancestors_rel t n) := by
  have hon := hv.2.1 n hn
  refine ⟨?_, ?_, ?_, pairwise_sortByLft _⟩
  · intro r
    rw [get_ancestors, List.mem_filter]
    constructor
    · rintro ⟨hr, hcond⟩
      simp at hcond
      refine ⟨hr, hcond.1, ?_⟩
      by_cases hk : r.key = n.key
      · rw [key_inj hv hr hn hk]
      · have hor := hv.2.1 r hr
        rcases hv.2.2.2 r hr n hn hk with h | h | h | h <;> omega
    · rintro ⟨hr, h1, h2⟩
      refine ⟨hr, ?_⟩
      simp
      omega
  · rw [get_ancestors, List.mem_filter]
    refine ⟨hn, ?_⟩
    simp
    omega
  · intro r
    rw [ancestors_rel, mem_sortByLft, List.mem_filter]
    simp

/-- Witness for C9: in the chain A=(1,6) ⊃ C=(2,5) ⊃ B=(3,4) (stored in the
order B, A, C), the inclusive query contains B itself and the strict
relationship contains A. -/
theorem ancestors_query_spec_witness :
    (⟨1, 3, 4⟩ : Row) ∈ get_ancestors [⟨1, 3, 4⟩, ⟨2, 1, 6⟩, ⟨3, 2, 5⟩] ⟨1, 3, 4⟩ ∧
    (⟨2, 1, 6⟩ : Row) ∈ ancestors_rel [⟨1, 3, 4⟩, ⟨2, 1, 6⟩, ⟨3, 2, 5⟩] ⟨1, 3, 4⟩ :=
  ⟨(ancestors_query_spec (by decide) (by decide)).2.1,
    ((ancestors_query_spec (by decide) (by decide)).2.2.1 ⟨2, 1, 6⟩).mpr (by decide)⟩

/-- C9 as stated fails: `get_ancestors` has no inclusive option yet returns
the queried node itself, and its result is ordered by `lft` neither
ascending nor descending (no caller preference exists): on the chain stored
in the order B, A, C the returned `lft` sequence is 3, 1, 2. -/
theorem ancestors_query_counterexample :
    Valid [⟨1, 3, 4⟩, ⟨2, 1, 6⟩, ⟨3, 2, 5⟩] ∧
    (⟨1, 3, 4⟩ : Row) ∈ get_ancestors [⟨1, 3, 4⟩, ⟨2, 1, 6⟩, ⟨3, 2, 5⟩] ⟨1, 3, 4⟩ ∧
    ¬ ((⟨1, 3, 4⟩ : Row).lft < (⟨1, 3, 4⟩ : Row).lft) ∧
    (get_ancestors [⟨1, 3, 4⟩, ⟨2, 1, 6⟩, ⟨3, 2, 5⟩] ⟨1, 3, 4⟩).map Row.lft = [3, 1, 2] ∧
    ¬ List.Pairwise (fun a b => a ≤ b)
      ((get_ancestors [⟨1, 3, 4⟩, ⟨2, 1, 6⟩, ⟨3, 2, 5⟩] ⟨1, 3, 4⟩).map Row.lft) ∧
    ¬ List.Pairwise (fun a b => b ≤ a)
      ((get_ancestors [⟨1, 3, 4⟩, ⟨2, 1, 6⟩, ⟨3, 2, 5⟩] ⟨1, 3, 4⟩).map Row.lft) := by
  decide

/-! ## C8: stack-based tree reconstruction (`generate_tree`) -/

/-- State of the reconstruction: the Python stack (top first) and the
transient `_children` assignments (`none` models an unset `_children`). -/
structure GenSt where
  stack : List Row
  cm : Nat → Option (List Nat)

/-- `parent = stack.pop()` followed by `while node.left > parent.right:
parent = stack.pop()`: drop stack entries whose `rgt` is below `l`; `none`
when the stack runs out (the Python code would raise IndexError). -/
def popFind : List Row → Int → Option (Row × List Row)
  | [], _ => none
  | p :: rest, l => if p.rgt < l then popFind rest l else some (p, rest)

/-- One iteration of the loop of `generate_tree`: find the parent, give the
node a fresh empty deque, append it to the parent's deque, push both back. -/
def genStep (st : GenSt) (node : Row) : Option GenSt :=
  match popFind st.stack node.lft with
  | none => none
  | some (parent, rest) =>
      let cm1 : Nat → Option (List Nat) :=
        fun k => if k = node.key then some [] else st.cm k
      some ⟨node :: parent :: rest,
        fun k => if k = parent.key then some ((cm1 parent.key).getD [] ++ [node.key])
                 else cm1 k⟩

/-- `generate_tree`: seed the root with an empty deque and a singleton stack,
then fold the left-ordered descendants through the loop body. -/
def generate_tree (root : Row) (ds : List Row) : Option GenSt :=
  ds.foldlM genStep ⟨[root], fun k => if k = root.key then some [] else none⟩

/-- Preorder flatten of a children map, with a fuel bound on the depth
(`ds.length + 1` suffices for a reconstruction of `ds`). -/
def flattenFrom (cm : Nat → Option (List Nat)) : Nat → Nat → List Nat
  | 0, k => [k]
  | fuel + 1, k => k :: ((cm k).getD []).bind (flattenFrom cm fuel)

/-- The tightest enclosing interval of `d` in `root :: ds`: among the strict
containers of `d`, the one with the largest `lft` (`root` when none of `ds`
contains `d`). -/
def tightest (root : Row) (ds : List Row) (d : Row) : Row :=
  ds.foldl (fun acc p =>
    if p.lft < d.lft ∧ d.rgt < p.rgt ∧ acc.lft < p.lft then p else acc) root

/-- The hypotheses of the reconstruction: a root and a left-ordered list of
its descendants satisfying the nesting invariant. -/
structure GenCtx (root : Row) (ds : List Row) : Prop where
  hord : ∀ r ∈ root :: ds, r.lft < r.rgt
  hnested : ∀ r ∈ root :: ds, ∀ s ∈ root :: ds, r.key ≠ s.key → disjointOrNested r s
  hkeys : ((root :: ds).map Row.key).Nodup
  hsorted : List.Pairwise (fun a b => a.lft < b.lft) (root :: ds)
  hinroot : ∀ e ∈ ds, root.lft < e.lft ∧ e.rgt < root.rgt

theorem flattenFrom_head_mem (cm : Nat → Option (List Nat)) (fuel k : Nat) :
    k ∈ flattenFrom cm fuel k := by
  cases fuel <;> simp [flattenFrom]

theorem bind_congr_mem {α β : Type} {l : List α} {f g : α → List β}
    (h : ∀ a ∈ l, f a = g a) : l.bind f = l.bind g := by
  induction l with
  | nil => rfl
  | cons a as ih =>
    rw [show (a :: as).bind f = f a ++ as.bind f from rfl,
      show (a :: as).bind g = g a ++ as.bind g from rfl,
      h a (by simp), ih (fun x hx => h x (by simp [hx]))]

/-- Changing the children map outside the keys visited by a flatten does not
change the flatten. -/
theorem flatten_congr {cm cm2 : Nat → Option (List Nat)} :
    ∀ {fuel : Nat} {k : Nat},
      (∀ x ∈ flattenFrom cm fuel k, cm2 x = cm x) →
      flattenFrom cm2 fuel k = flattenFrom cm fuel k
  | 0, k, _ => rfl
  | fuel + 1, k, h => by
      have hk : cm2 k = cm k := h k (flattenFrom_head_mem cm (fuel + 1) k)
      simp only [flattenFrom, hk]
      congr 1
      apply bind_congr_mem
      intro c hc
      apply flatten_congr
      intro x hx
      apply h
      simp only [flattenFrom, List.mem_cons]
      right
      exact List.mem_bind.mpr ⟨c, hc, hx⟩

/-- In a list with no duplicates the split at an element is unique. -/
theorem split_unique {a : Row} : ∀ {x1 x2 y1 y2 : List Row},
    x1 ++ a :: x2 = y1 ++ a :: y2 → (x1 ++ a :: x2).Nodup →
    x1 = y1 ∧ x2 = y2 := by
  intro x1
  induction x1 with
  | nil =>
    intro x2 y1 y2 he hnd
    cases y1 with
    | nil => simpa using he
    | cons c y1t =>
      simp only [List.nil_append, List.cons_append, List.cons.injEq] at he
      obtain ⟨rfl, he2⟩ := he
      simp only [List.nil_append, List.nodup_cons] at hnd
      exact absurd (he2 ▸ (by simp : a ∈ y1t ++ a :: y2)) hnd.1
  | cons c x1t ih =>
    intro x2 y1 y2 he hnd
    cases y1 with
    | nil =>
      simp only [List.cons_append, List.nil_append, List.cons.injEq] at he
      obtain ⟨rfl, he2⟩ := he
      simp only [List.cons_append, List.nodup_cons] at hnd
      exact absurd (by simp : c ∈ x1t ++ c :: x2) hnd.1
    | cons e y1t =>
      simp only [List.cons_append, List.cons.injEq] at he
      obtain ⟨rfl, he2⟩ := he
      rw [List.cons_append, List.nodup_cons] at hnd
      obtain ⟨h1, h2⟩ := ih he2 hnd.2
      exact ⟨by rw [h1], h2⟩

/-- In a strictly `lft`-sorted list, a member with a larger `lft` than the
split point lies in the suffix. -/
theorem mem_suffix_of_sorted {l l1 l2 : List Row} {a b : Row}
    (hs : List.Pairwise (fun x y => x.lft < y.lft) l)
    (he : l = l1 ++ b :: l2) (ha : a ∈ l) (hlt : b.lft < a.lft) : a ∈ l2 := by
  subst he
  rcases List.mem_append.mp ha with h | h
  · have := List.pairwise_append.mp hs
    have h2 := this.2.2 a h b (by simp)
    omega
  · rcases List.mem_cons.mp h with rfl | h
    · omega
    · exact h

theorem chain_drop {α : Type} {R : α → α → Prop} :
    ∀ {l1 l2 : List α}, List.Chain' R (l1 ++ l2) → List.Chain' R l2
  | [], _, h => h
  | _ :: l1t, l2, h => chain_drop (List.Chain'.tail h)

theorem popFind_spec {l : Int} : ∀ {stack : List Row},
    (∃ q ∈ stack, l < q.rgt) → (∀ q ∈ stack, q.rgt ≠ l) →
    ∃ popped p rest, stack = popped ++ p :: rest ∧
      popFind stack l = some (p, rest) ∧
      (∀ x ∈ popped, x.rgt < l) ∧ l < p.rgt
  | [], hex, _ => by simp at hex
  | q :: tail, hex, hne => by
      by_cases hq : q.rgt < l
      · have hex2 : ∃ x ∈ tail, l < x.rgt := by
          obtain ⟨x, hx, hlt⟩ := hex
          rcases List.mem_cons.mp hx with rfl | hx
          · omega
          · exact ⟨x, hx, hlt⟩
        obtain ⟨popped, p, rest, he, hp, hpop, hlt⟩ :=
          popFind_spec hex2 (fun x hx => hne x (List.mem_cons_of_mem q hx))
        refine ⟨q :: popped, p, rest, by rw [he]; rfl, ?_, ?_, hlt⟩
        · unfold popFind
          rw [if_pos hq]
          exact hp
        · intro x hx
          rcases List.mem_cons.mp hx with rfl | hx
          · exact hq
          · exact hpop x hx
      · have hqe := hne q (by simp)
        refine ⟨[], q, tail, rfl, ?_, by simp, by omega⟩
        unfold popFind
        rw [if_neg hq]

theorem tightest_aux {d : Row} : ∀ (l : List Row) (acc : Row),
    (acc.lft < d.lft ∧ d.rgt < acc.rgt) →
    ((l.foldl (fun acc p =>
        if p.lft < d.lft ∧ d.rgt < p.rgt ∧ acc.lft < p.lft then p else acc) acc).lft < d.lft ∧
      d.rgt < (l.foldl (fun acc p =>
        if p.lft < d.lft ∧ d.rgt < p.rgt ∧ acc.lft < p.lft then p else acc) acc).rgt) ∧
    ((l.foldl (fun acc p =>
        if p.lft < d.lft ∧ d.rgt < p.rgt ∧ acc.lft < p.lft then p else acc) acc) = acc ∨
      (l.foldl (fun acc p =>
        if p.lft < d.lft ∧ d.rgt < p.rgt ∧ acc.lft < p.lft then p else acc) acc) ∈ l) ∧
    acc.lft ≤ (l.foldl (fun acc p =>
        if p.lft < d.lft ∧ d.rgt < p.rgt ∧ acc.lft < p.lft then p else acc) acc).lft ∧
    (∀ q ∈ l, (q.lft < d.lft ∧ d.rgt < q.rgt) →
      q.lft ≤ (l.foldl (fun acc p =>
        if p.lft < d.lft ∧ d.rgt < p.rgt ∧ acc.lft < p.lft then p else acc) acc).lft)
  | [], acc, hacc => ⟨hacc, Or.inl rfl, le_refl _, by simp⟩
  | q :: l, acc, hacc => by
      rw [List.foldl_cons]
      by_cases hc : q.lft < d.lft ∧ d.rgt < q.rgt ∧ acc.lft < q.lft
      · rw [if_pos hc]
        obtain ⟨ih1, ih2, ih3, ih4⟩ := tightest_aux l q ⟨hc.1, hc.2.1⟩
        refine ⟨ih1, ?_, by omega, ?_⟩
        · rcases ih2 with h | h
          · exact Or.inr (by rw [h]; simp)
          · exact Or.inr (List.mem_cons_of_mem q h)
        · intro x hx hcx
          rcases List.mem_cons.mp hx with rfl | hx
          · exact ih3
          · exact ih4 x hx hcx
      · rw [if_neg hc]
        obtain ⟨ih1, ih2, ih3, ih4⟩ := tightest_aux l acc hacc
        refine ⟨ih1, ?_, ih3, ?_⟩
        · rcases ih2 with h | h
          · exact Or.inl h
          · exact Or.inr (List.mem_cons_of_mem q h)
        · intro x hx hcx
          rcases List.mem_cons.mp hx with rfl | hx
          · have : ¬ acc.lft < x.lft := fun hl => hc ⟨hcx.1, hcx.2, hl⟩
            omega
          · exact ih4 x hx hcx

/-- The fold of `tightest` returns exactly the container with the largest
`lft`. -/
theorem tightest_spec {root : Row} {ds : List Row} {d p : Row}
    (hroot : root.lft < d.lft ∧ d.rgt < root.rgt)
    (hp : p = root ∨ p ∈ ds) (hcp : p.lft < d.lft ∧ d.rgt < p.rgt)
    (hmax : ∀ q, (q = root ∨ q ∈ ds) → (q.lft < d.lft ∧ d.rgt < q.rgt) →
      q ≠ p → q.lft < p.lft) :
    tightest root ds d = p := by
  obtain ⟨h1, h2, h3, h4⟩ := tightest_aux ds root hroot
  unfold tightest
  by_contra hne
  have hlt := hmax _ (h2.imp id id) h1 hne
  rcases hp with rfl | hp
  · omega
  · have := h4 p hp hcp
    omega

theorem flattenFrom_empty {cm : Nat → Option (List Nat)} {k : Nat}
    (h : cm k = some []) : ∀ fuel, flattenFrom cm fuel k = [k]
  | 0 => rfl
  | fuel + 1 => by simp [flattenFrom, h]

theorem exists_concat_of_getLast? {l : List Row} {a : Row}
    (h : l.getLast? = some a) : ∃ t, l = t ++ [a] := by
  have h2 : l.reverse.head? = some a := by rw [List.head?_reverse]; exact h
  cases hl : l.reverse with
  | nil => rw [hl] at h2; simp at h2
  | cons x t =>
    rw [hl] at h2
    simp at h2
    subst h2
    refine ⟨t.reverse, ?_⟩
    rw [← List.reverse_reverse l, hl]
    simp

theorem mem_getLastD : ∀ (l : List Row) (x : Row), l.getLastD x ∈ x :: l
  | [], x => by simp
  | a :: l, x => by
      rw [List.getLastD_cons]
      have := mem_getLastD l a
      simp only [List.mem_cons] at this ⊢
      tauto

/-- Invariant of the reconstruction fold after processing the prefix `pre`
of the descendant scan: the stack is the nested chain of open ancestors of
the last processed node (bottom = root), the children map records, for every
processed node, exactly its processed children (those whose tightest
enclosing interval it is) in scan order, each stack entry is the last child
of the entry below it, and the preorder flatten of every stack entry
reproduces the processed scan from that entry on. -/
structure GenInv (root : Row) (ds : List Row) (pre : List Row) (st : GenSt) : Prop where
  s_decomp : ∃ s2, st.stack = s2 ++ [root]
  s_sub : ∀ p ∈ st.stack, p ∈ root :: pre
  s_chain : List.Pairwise (fun a b => b.lft < a.lft ∧ a.rgt < b.rgt) st.stack
  s_top : st.stack.head? = some (pre.getLastD root)
  s_iff : ∀ q ∈ root :: pre, (q ∈ st.stack ↔ (pre.getLastD root).lft < q.rgt)
  c_dom : ∀ k, (st.cm k).isSome ↔ k ∈ (root :: pre).map Row.key
  c_val : ∀ q ∈ root :: pre, st.cm q.key =
      some ((pre.filter (fun e => tightest root ds e == q)).map Row.key)
  c_last : List.Chain' (fun a b => ∃ l, st.cm b.key = some (l ++ [a.key])) st.stack
  f_all : ∀ q ∈ st.stack, ∃ l1 l2, root :: pre = l1 ++ q :: l2 ∧
      ∀ fuel, l2.length + 1 ≤ fuel →
        flattenFrom st.cm fuel q.key = (q :: l2).map Row.key

theorem genInv_init {root : Row} {ds : List Row} (ctx : GenCtx root ds) :
    GenInv root ds []
      ⟨[root], fun k => if k = root.key then some [] else none⟩ := by
  have hro := ctx.hord root (by simp)
  refine ⟨⟨[], rfl⟩, by simp, by simp, by simp [List.getLastD], ?_, ?_, ?_, by simp, ?_⟩
  · intro q hq
    simp at hq
    subst hq
    simp [List.getLastD]
    omega
  · intro k
    by_cases h : k = root.key <;> simp [h]
  · intro q hq
    simp at hq
    subst hq
    simp
  · intro q hq
    simp at hq
    subst hq
    refine ⟨[], [], by simp, ?_⟩
    intro fuel hf
    rw [flattenFrom_empty (by simp) fuel]
    simp

/-- Lifting an appended child up the chain of open ancestors: if the
flatten of the top of the chain gained the new key at its end, so does the
flatten of every ancestor on the chain. -/
theorem lift_flatten {root : Row} {pre : List Row} {cm cm2 : Nat → Option (List Nat)}
    {p d : Row}
    (hcm2 : ∀ k, k ≠ p.key → k ≠ d.key → cm2 k = cm k)
    (hfresh : d.key ∉ (root :: pre).map Row.key)
    (hnd : ((root :: pre).map Row.key).Nodup)
    (hsorted : List.Pairwise (fun a b => a.lft < b.lft) (root :: pre)) :
    ∀ (l : List Row) (a : Row),
      List.Chain' (fun x y => ∃ u, cm y.key = some (u ++ [x.key])) (a :: l) →
      List.Pairwise (fun x y => y.lft < x.lft ∧ x.rgt < y.rgt) (a :: l) →
      (∀ y ∈ a :: l, ∃ m1 m2, root :: pre = m1 ++ y :: m2 ∧
        ∀ fuel, m2.length + 1 ≤ fuel →
          flattenFrom cm fuel y.key = (y :: m2).map Row.key) →
      (∀ y ∈ l, y.key ≠ p.key) →
      (∃ n1 n2, root :: pre = n1 ++ a :: n2 ∧
        p.key ∈ (a :: n2).map Row.key ∧
        ∀ fuel, n2.length + 2 ≤ fuel →
          flattenFrom cm2 fuel a.key = ((a :: n2) ++ [d]).map Row.key) →
      ∀ q ∈ a :: l, ∃ n1 n2, root :: pre = n1 ++ q :: n2 ∧
        p.key ∈ (q :: n2).map Row.key ∧
        ∀ fuel, n2.length + 2 ≤ fuel →
          flattenFrom cm2 fuel q.key = ((q :: n2) ++ [d]).map Row.key := by
  have hndr : (root :: pre).Nodup := hnd.of_map Row.key
  intro l
  induction l with
  | nil =>
    intro a _ _ _ _ hbase q hq
    simp at hq
    subst hq
    exact hbase
  | cons b lt ih =>
    intro a hchain hpair hold hne hbase q hq
    rcases List.mem_cons.mp hq with rfl | hq2
    · exact hbase
    -- establish AUX for b, then recurse
    obtain ⟨u, hub⟩ := (List.chain'_cons.mp hchain).1
    obtain ⟨m1, m2, hmeq, hmfl⟩ := hold b (by simp)
    obtain ⟨n1, n2, hneq, hpin, hnfl⟩ := hbase
    obtain ⟨o1, o2, hoeq, hofl⟩ := hold a (by simp)
    -- the two splits at a agree
    have hsplit_a := split_unique (a := a) (hoeq.symm.trans hneq) (hoeq ▸ hndr)
    obtain ⟨rfl, rfl⟩ := hsplit_a
    have hba : b.lft < a.lft := (List.pairwise_cons.mp hpair).1 b (by simp) |>.1
    have ham : a ∈ root :: pre := by rw [hneq]; simp
    have hain : a ∈ m2 := mem_suffix_of_sorted hsorted hmeq ham hba
    obtain ⟨u1, u2, hu⟩ := List.append_of_mem hain
    have hmeq2 : root :: pre = (m1 ++ b :: u1) ++ a :: u2 := by
      rw [hmeq, hu]
      simp
    have hsplit2 := split_unique (a := a) (hmeq2.symm.trans hneq) (hmeq2 ▸ hndr)
    obtain ⟨-, rfl⟩ := hsplit2
    -- now n2 = u2; lengths
    have hlen : u2.length + 1 ≤ m2.length := by
      rw [hu]
      simp
    have hbm : b ∈ root :: pre := by rw [hmeq]; simp
    have hbd : b.key ≠ d.key := by
      intro he
      exact hfresh (he ▸ List.mem_map_of_mem Row.key hbm)
    have hbp : b.key ≠ p.key := hne b (by simp)
    have hb2 : cm2 b.key = cm b.key := hcm2 _ hbp hbd
    -- keys of m2 are Nodup and exclude b.key and d.key
    have hmkeys : ((b :: m2).map Row.key).Nodup := by
      have hsub : List.Sublist (b :: m2) (root :: pre) := by
        rw [hmeq]
        exact (List.sublist_append_right m1 (b :: m2))
      exact List.Nodup.sublist (hsub.map Row.key) hnd
    have hauxb : ∃ n1 n2, root :: pre = n1 ++ b :: n2 ∧
        p.key ∈ (b :: n2).map Row.key ∧
        ∀ fuel, n2.length + 2 ≤ fuel →
          flattenFrom cm2 fuel b.key = ((b :: n2) ++ [d]).map Row.key := by
      refine ⟨m1, m2, hmeq, ?_, ?_⟩
      · obtain ⟨e, he, hek⟩ := List.mem_map.mp hpin
        have hem : e ∈ b :: m2 := by
          rw [hu]
          rcases List.mem_cons.mp he with rfl | he2
          · simp
          · simp [he2]
        exact hek ▸ List.mem_map_of_mem Row.key hem
      · intro fuel hf
        cases fuel with
        | zero => omega
        | succ f =>
          have hf2 : m2.length + 1 ≤ f := by omega
          have hstep : flattenFrom cm2 (f + 1) b.key =
              b.key :: (u.bind (flattenFrom cm2 f) ++ flattenFrom cm2 f a.key) := by
            simp [flattenFrom, hb2, hub, List.bind_append]
          have holdeq : b.key :: (u.bind (flattenFrom cm f) ++
              flattenFrom cm f a.key) = (b :: m2).map Row.key := by
            have h1 : flattenFrom cm (f + 1) b.key = (b :: m2).map Row.key :=
              hmfl (f + 1) (by omega)
            rw [← h1]
            simp [flattenFrom, hub, List.bind_append]
          have hfa : flattenFrom cm f a.key = (a :: u2).map Row.key :=
            hofl f (by omega)
          have hfa2 : flattenFrom cm2 f a.key = ((a :: u2) ++ [d]).map Row.key :=
            hnfl f (by omega)
          have hXY : u.bind (flattenFrom cm f) ++ (a :: u2).map Row.key =
              m2.map Row.key := by
            have := holdeq
            rw [hfa] at this
            exact List.cons.inj this |>.2
          have hdisj : ∀ x ∈ u.bind (flattenFrom cm f),
              x ≠ p.key ∧ x ≠ d.key := by
            intro x hx
            have hxm : x ∈ m2.map Row.key := by
              rw [← hXY]
              exact List.mem_append_left _ hx
            constructor
            · intro he
              subst he
              have hnd2 : (m2.map Row.key).Nodup := (List.nodup_cons.mp hmkeys).2
              rw [← hXY] at hnd2
              have hdis := List.disjoint_of_nodup_append hnd2
              exact hdis hx hpin
            · intro he
              subst he
              apply hfresh
              have : List.Sublist (m2.map Row.key) ((root :: pre).map Row.key) := by
                have hsub : List.Sublist m2 (root :: pre) := by
                  rw [hmeq]
                  have h3 : List.Sublist m2 (b :: m2) := List.sublist_cons_self b m2
                  exact h3.trans (List.sublist_append_right m1 (b :: m2))
                exact hsub.map Row.key
              exact this.mem hxm
          have hXcongr : u.bind (flattenFrom cm2 f) = u.bind (flattenFrom cm f) := by
            apply bind_congr_mem
            intro c hc
            apply flatten_congr
            intro x hx
            have hxX : x ∈ u.bind (flattenFrom cm f) := List.mem_bind.mpr ⟨c, hc, hx⟩
            exact hcm2 x (hdisj x hxX).1 (hdisj x hxX).2
          rw [hstep, hXcongr, hfa2]
          have : u.bind (flattenFrom cm f) ++ ((a :: u2).map Row.key ++ [d.key]) =
              (u.bind (flattenFrom cm f) ++ (a :: u2).map Row.key) ++ [d.key] := by
            simp
          rw [show ((a :: u2) ++ [d]).map Row.key =
            (a :: u2).map Row.key ++ [d.key] from by simp, this, hXY]
          simp
    exact ih b (List.Chain'.tail hchain) (List.Pairwise.tail hpair)
      (fun y hy => hold y (List.mem_cons_of_mem a hy))
      (fun y hy => hne y (List.mem_cons_of_mem b hy)) hauxb q hq2

theorem step_pre_facts {root : Row} {ds pre suf : List Row} {d : Row}
    (ctx : GenCtx root ds) (hds : ds = pre ++ d :: suf) :
    (∀ e ∈ root :: pre, e ∈ root :: ds) ∧
    (∀ e ∈ root :: pre, e.lft < d.lft) ∧
    List.Pairwise (fun a b => a.lft < b.lft) (root :: pre) ∧
    ((root :: pre).map Row.key).Nodup ∧
    d.key ∉ (root :: pre).map Row.key := by
  have hsplit : root :: ds = (root :: pre) ++ d :: suf := by rw [hds]; rfl
  have hsub : ∀ e ∈ root :: pre, e ∈ root :: ds := by
    intro e he
    rw [hsplit]
    exact List.mem_append_left _ he
  have hps := ctx.hsorted
  rw [hsplit] at hps
  have hpa := List.pairwise_append.mp hps
  have hlt : ∀ e ∈ root :: pre, e.lft < d.lft :=
    fun e he => hpa.2.2 e he d (by simp)
  have hnd : ((root :: pre).map Row.key).Nodup := by
    have hsb : List.Sublist ((root :: pre).map Row.key) ((root :: ds).map Row.key) := by
      rw [hsplit]
      exact (List.sublist_append_left (root :: pre) (d :: suf)).map Row.key
    exact List.Nodup.sublist hsb ctx.hkeys
  have hfresh : d.key ∉ (root :: pre).map Row.key := by
    intro hm
    obtain ⟨e, he, hek⟩ := List.mem_map.mp hm
    have hed : e = d := List.inj_on_of_nodup_map ctx.hkeys (hsub e he)
      (by rw [hsplit]; exact List.mem_append_right _ (by simp)) hek
    subst hed
    exact absurd (hlt e he) (lt_irrefl _)
  exact ⟨hsub, hlt, hpa.1, hnd, hfresh⟩


/-- The children map produced by one loop iteration: the node gets a fresh
empty deque, then is appended to the parent's deque. -/
def stepCm (cm : Nat → Option (List Nat)) (pk dk : Nat) : Nat → Option (List Nat) :=
  fun k => if k = pk then some (((if pk = dk then some [] else cm pk).getD []) ++ [dk])
           else if k = dk then some [] else cm k

theorem genStep_eq {st : GenSt} {d p : Row} {rest : List Row}
    (hpf : popFind st.stack d.lft = some (p, rest)) :
    genStep st d = some ⟨d :: p :: rest, stepCm st.cm p.key d.key⟩ := by
  unfold genStep stepCm
  rw [hpf]

theorem genStep_inv {root : Row} {ds : List Row} (ctx : GenCtx root ds)
    {pre suf : List Row} {d : Row} (hds : ds = pre ++ d :: suf)
    {st : GenSt} (inv : GenInv root ds pre st) :
    ∃ st2, genStep st d = some st2 ∧ GenInv root ds (pre ++ [d]) st2 := by
  obtain ⟨hsub, hlt, hsp, hkp, hfresh⟩ := step_pre_facts ctx hds
  have hdm : d ∈ ds := by rw [hds]; simp
  have hdm2 : d ∈ root :: ds := by simp [hdm]
  have hdr := ctx.hinroot d hdm
  have hdo := ctx.hord d hdm2
  have hpre_sub : ∀ e ∈ pre, e ∈ ds := by
    intro e he
    rw [hds]
    exact List.mem_append_left _ he
  have hd_notin : d ∉ root :: pre := fun hin => absurd (hlt d hin) (lt_irrefl _)
  have hkne : ∀ e ∈ root :: pre, e.key ≠ d.key := by
    intro e he hk
    exact hfresh (hk ▸ List.mem_map_of_mem Row.key he)
  have hkinj : ∀ a ∈ root :: pre, ∀ b ∈ root :: pre, a.key = b.key → a = b :=
    fun a ha b hb => List.inj_on_of_nodup_map hkp ha hb
  obtain ⟨s2d, hs2d⟩ := inv.s_decomp
  have hroot_stack : root ∈ st.stack := by rw [hs2d]; simp
  have hex : ∃ q ∈ st.stack, d.lft < q.rgt := ⟨root, hroot_stack, by omega⟩
  have hne_rgt : ∀ q ∈ st.stack, q.rgt ≠ d.lft := by
    intro q hq
    have hqp := inv.s_sub q hq
    have hqo := ctx.hord q (hsub q hqp)
    have hqk := hkne q hqp
    have hrel := ctx.hnested q (hsub q hqp) d hdm2 hqk
    unfold disjointOrNested at hrel
    omega
  obtain ⟨popped, p, rest, hsplit, hpf, hpop, hplt⟩ := popFind_spec hex hne_rgt
  have hp_stack : p ∈ st.stack := by rw [hsplit]; simp
  have hpr_stack : ∀ x ∈ p :: rest, x ∈ st.stack := by
    intro x hx
    rw [hsplit]
    exact List.mem_append_right _ hx
  have hp_pre : p ∈ root :: pre := inv.s_sub p hp_stack
  have hchain_pr : List.Pairwise (fun a b => b.lft < a.lft ∧ a.rgt < b.rgt)
      (p :: rest) := by
    have hpw := inv.s_chain
    rw [hsplit] at hpw
    exact (List.pairwise_append.mp hpw).2.1
  have hclast_pr : List.Chain' (fun a b => ∃ l, st.cm b.key = some (l ++ [a.key]))
      (p :: rest) := by
    have hcl := inv.c_last
    rw [hsplit] at hcl
    exact chain_drop hcl
  have hrest_rgt : ∀ x ∈ rest, p.rgt < x.rgt :=
    fun x hx => ((List.pairwise_cons.mp hchain_pr).1 x hx).2
  have hpcont : p.lft < d.lft ∧ d.rgt < p.rgt := by
    refine ⟨hlt p hp_pre, ?_⟩
    have hpo := ctx.hord p (hsub p hp_pre)
    rcases List.mem_cons.mp hp_pre with rfl | hp2
    · omega
    · have hrel := ctx.hnested p (hsub p hp_pre) d hdm2 (hkne p hp_pre)
      unfold disjointOrNested at hrel
      have h1 := hlt p hp_pre
      omega
  have hcont_all : ∀ x ∈ p :: rest, d.lft < x.rgt := by
    intro x hx
    rcases List.mem_cons.mp hx with rfl | hx2
    · exact hplt
    · have := hrest_rgt x hx2
      omega
  have hlast_mem : pre.getLastD root ∈ root :: pre := mem_getLastD pre root
  have htight : tightest root ds d = p := by
    apply tightest_spec hdr
    · rcases List.mem_cons.mp hp_pre with rfl | hp2
      · exact Or.inl rfl
      · exact Or.inr (hpre_sub p hp2)
    · exact hpcont
    · intro q hq hqc hqne
      have hq2 : q ∈ root :: ds := by
        rcases hq with rfl | hq3
        · simp
        · simp [hq3]
      have hq_pre : q ∈ root :: pre := by
        rcases List.mem_cons.mp hq2 with rfl | hq3
        · simp
        · rw [hds] at hq3
          rcases List.mem_append.mp hq3 with h | h
          · simp [h]
          · rcases List.mem_cons.mp h with rfl | h2
            · exact absurd hqc.1 (lt_irrefl _)
            · exfalso
              have hps := ctx.hsorted
              have hsplit2 : root :: ds = (root :: pre ++ [d]) ++ suf := by
                rw [hds]
                simp
              rw [hsplit2] at hps
              have := (List.pairwise_append.mp hps).2.2 d (by simp) q h2
              omega
      have hq_stack : q ∈ st.stack := by
        apply (inv.s_iff q hq_pre).mpr
        have := hlt (pre.getLastD root) hlast_mem
        have hqo := ctx.hord q (hsub q hq_pre)
        omega
      rw [hsplit] at hq_stack
      rcases List.mem_append.mp hq_stack with h | h
      · have := hpop q h
        omega
      · rcases List.mem_cons.mp h with rfl | h2
        · exact absurd rfl hqne
        · exact ((List.pairwise_cons.mp hchain_pr).1 q h2).1
  have htold : ∀ e ∈ pre, tightest root ds e ≠ d := by
    intro e he hcontra
    have heds := hpre_sub e he
    obtain ⟨h1, _, _, _⟩ := tightest_aux ds root (ctx.hinroot e heds)
    unfold tightest at hcontra
    rw [hcontra] at h1
    have := hlt e (by simp [he])
    omega
  have hp_ne_d : p ≠ d := fun he => hd_notin (he ▸ hp_pre)
  have hpk_ne_d : p.key ≠ d.key := hkne p hp_pre
  have hcvp := inv.c_val p hp_pre
  have hcm2p : stepCm st.cm p.key d.key p.key =
      some (((pre.filter (fun e => tightest root ds e == p)).map Row.key)
        ++ [d.key]) := by
    simp [stepCm, hpk_ne_d, hcvp]
  have hcm2d : stepCm st.cm p.key d.key d.key = some [] := by
    simp [stepCm, Ne.symm hpk_ne_d]
  have hcm2o : ∀ k, k ≠ p.key → k ≠ d.key →
      stepCm st.cm p.key d.key k = st.cm k := by
    intro k h1 h2
    simp [stepCm, h1, h2]
  refine ⟨⟨d :: p :: rest, stepCm st.cm p.key d.key⟩, genStep_eq hpf, ?_⟩
  have hlastd : (pre ++ [d]).getLastD root = d := List.getLastD_concat root d pre
  have hmem_lift : ∀ x, x ∈ root :: pre → x ∈ root :: (pre ++ [d]) := by
    intro x hx
    rcases List.mem_cons.mp hx with rfl | h
    · simp
    · simp [h]
  have hmem_new : ∀ x, x ∈ root :: (pre ++ [d]) → x ∈ root :: pre ∨ x = d := by
    intro x hx
    rcases List.mem_cons.mp hx with rfl | h
    · exact Or.inl (by simp)
    · rcases List.mem_append.mp h with h2 | h2
      · exact Or.inl (by simp [h2])
      · exact Or.inr (by simpa using h2)
  have hrest_nep : ∀ y ∈ rest, y.key ≠ p.key := by
    intro y hy hk
    have hym := inv.s_sub y (hpr_stack y (by simp [hy]))
    have hyp := hkinj y hym p hp_pre hk
    subst hyp
    exact absurd ((List.pairwise_cons.mp hchain_pr).1 y hy).1 (lt_irrefl _)
  constructor
  · -- s_decomp
    have hl1 : st.stack.getLast? = some root := by
      rw [hs2d]
      rw [List.getLast?_append_of_ne_nil _ (by simp : [root] ≠ [])]
      rfl
    have hl2 : (p :: rest).getLast? = some root := by
      rw [hsplit] at hl1
      rwa [List.getLast?_append_of_ne_nil _ (by simp : p :: rest ≠ [])] at hl1
    obtain ⟨s3, hs3⟩ := exists_concat_of_getLast? hl2
    refine ⟨d :: s3, ?_⟩
    show d :: p :: rest = (d :: s3) ++ [root]
    rw [hs3]
    rfl
  · -- s_sub
    intro x hx
    rcases List.mem_cons.mp hx with rfl | hx2
    · simp
    · exact hmem_lift x (inv.s_sub x (hpr_stack x hx2))
  · -- s_chain
    refine List.pairwise_cons.mpr ⟨?_, hchain_pr⟩
    intro x hx
    refine ⟨hlt x (inv.s_sub x (hpr_stack x hx)), ?_⟩
    rcases List.mem_cons.mp hx with rfl | hx2
    · exact hpcont.2
    · have := hrest_rgt x hx2
      omega
  · -- s_top
    show some d = some ((pre ++ [d]).getLastD root)
    rw [hlastd]
  · -- s_iff
    intro q hq
    rw [hlastd]
    rcases hmem_new q hq with hq2 | rfl
    · constructor
      · intro hin
        rcases List.mem_cons.mp hin with rfl | hin2
        · exact absurd hq2 hd_notin
        · exact hcont_all q hin2
      · intro hlt2
        have hq_stack : q ∈ st.stack := by
          apply (inv.s_iff q hq2).mpr
          have := hlt (pre.getLastD root) hlast_mem
          omega
        rw [hsplit] at hq_stack
        rcases List.mem_append.mp hq_stack with h | h
        · have := hpop q h
          omega
        · exact List.mem_cons_of_mem d h
    · simp [hdo]
  · -- c_dom
    intro k
    show (stepCm st.cm p.key d.key k).isSome ↔ _
    by_cases h1 : k = p.key
    · subst h1
      rw [hcm2p]
      simp only [Option.isSome_some, true_iff]
      exact List.mem_map_of_mem Row.key (hmem_lift p hp_pre)
    · by_cases h2 : k = d.key
      · subst h2
        rw [hcm2d]
        simp
      · rw [hcm2o k h1 h2]
        rw [inv.c_dom k]
        constructor
        · intro h
          obtain ⟨e, he, hek⟩ := List.mem_map.mp h
          exact hek ▸ List.mem_map_of_mem Row.key (hmem_lift e he)
        · intro h
          obtain ⟨e, he, hek⟩ := List.mem_map.mp h
          rcases hmem_new e he with he2 | rfl
          · exact hek ▸ List.mem_map_of_mem Row.key he2
          · exact absurd hek.symm h2
  · -- c_val
    intro q hq
    have hfilter : (pre ++ [d]).filter (fun e => tightest root ds e == q) =
        pre.filter (fun e => tightest root ds e == q) ++
          (if tightest root ds d == q then [d] else []) := by
      rw [List.filter_append]
      congr 1
      rw [List.filter_singleton]
      simp [Bool.cond_eq_ite]
    show stepCm st.cm p.key d.key q.key = _
    rcases hmem_new q hq with hq2 | rfl
    · by_cases hqp : q = p
      · subst hqp
        rw [hcm2p, hfilter]
        rw [if_pos (by simp [htight])]
        simp
      · have hqk1 : q.key ≠ p.key := fun hk => hqp (hkinj q hq2 p hp_pre hk)
        have hqk2 : q.key ≠ d.key := hkne q hq2
        rw [hcm2o q.key hqk1 hqk2, inv.c_val q hq2, hfilter]
        rw [if_neg (by simp [htight]; exact fun hc => hqp hc.symm)]
        simp
    · rw [hcm2d, hfilter]
      rw [if_neg (by simp [htight]; exact hp_ne_d)]
      have hnil : pre.filter (fun e => tightest root ds e == q) = [] := by
        apply List.filter_eq_nil_iff.mpr
        intro e he
        simp [htold e he]
      rw [hnil]
      simp
  · -- c_last
    have haux : ∀ (l : List Row) (x : Row),
        List.Chain' (fun a b => ∃ u, st.cm b.key = some (u ++ [a.key])) (x :: l) →
        (∀ y ∈ l, y ∈ root :: pre ∧ y.key ≠ p.key) →
        List.Chain' (fun a b => ∃ u,
          stepCm st.cm p.key d.key b.key = some (u ++ [a.key])) (x :: l) := by
      intro l
      induction l with
      | nil => intro x _ _; simp
      | cons y lt ih =>
        intro x hch hmem
        rw [List.chain'_cons] at hch ⊢
        obtain ⟨⟨u, hu⟩, hch2⟩ := hch
        obtain ⟨hym, hyk⟩ := hmem y (by simp)
        refine ⟨⟨u, ?_⟩, ih y hch2 (fun z hz => hmem z (by simp [hz]))⟩
        rw [hcm2o y.key hyk (hkne y hym)]
        exact hu
    show List.Chain' _ (d :: p :: rest)
    rw [List.chain'_cons]
    refine ⟨⟨_, hcm2p⟩, ?_⟩
    exact haux rest p hclast_pr (fun y hy =>
      ⟨inv.s_sub y (hpr_stack y (by simp [hy])), hrest_nep y hy⟩)
  · -- f_all
    intro q hq
    rcases List.mem_cons.mp hq with rfl | hq2
    · refine ⟨root :: pre, [], by simp, ?_⟩
      intro fuel _
      rw [flattenFrom_empty hcm2d fuel]
      rfl
    · obtain ⟨l1, l2, hleq, hlfl⟩ := inv.f_all p hp_stack
      have hl2keys : ((p :: l2).map Row.key).Nodup := by
        have hsb : List.Sublist (p :: l2) (root :: pre) := by
          rw [hleq]
          exact List.sublist_append_right l1 (p :: l2)
        exact List.Nodup.sublist (hsb.map Row.key) hkp
      have hl2sub : ∀ x ∈ l2, x ∈ root :: pre := by
        intro x hx
        rw [hleq]
        exact List.mem_append_right _ (by simp [hx])
      have hbase : ∃ n1 n2, root :: pre = n1 ++ p :: n2 ∧
          p.key ∈ (p :: n2).map Row.key ∧
          ∀ fuel, n2.length + 2 ≤ fuel →
            flattenFrom (stepCm st.cm p.key d.key) fuel p.key =
              ((p :: n2) ++ [d]).map Row.key := by
        refine ⟨l1, l2, hleq, by simp, ?_⟩
        intro fuel hf
        cases fuel with
        | zero => omega
        | succ f =>
          have hold1 : flattenFrom st.cm (f + 1) p.key = (p :: l2).map Row.key :=
            hlfl (f + 1) (by omega)
          have holdeq : p.key :: ((pre.filter
              (fun e => tightest root ds e == p)).map Row.key).bind
              (flattenFrom st.cm f) = (p :: l2).map Row.key := by
            rw [← hold1]
            simp [flattenFrom, hcvp]
          have hbindeq : ((pre.filter
              (fun e => tightest root ds e == p)).map Row.key).bind
              (flattenFrom st.cm f) = l2.map Row.key :=
            (List.cons.inj holdeq).2
          have hcongr : ((pre.filter
              (fun e => tightest root ds e == p)).map Row.key).bind
              (flattenFrom (stepCm st.cm p.key d.key) f) =
              ((pre.filter (fun e => tightest root ds e == p)).map Row.key).bind
                (flattenFrom st.cm f) := by
            apply bind_congr_mem
            intro c hc
            apply flatten_congr
            intro x hx
            have hxm : x ∈ l2.map Row.key := by
              rw [← hbindeq]
              exact List.mem_bind.mpr ⟨c, hc, hx⟩
            have hx1 : x ≠ p.key := by
              intro he
              subst he
              exact (List.nodup_cons.mp hl2keys).1 hxm
            have hx2 : x ≠ d.key := by
              intro he
              subst he
              obtain ⟨e, he2, hek⟩ := List.mem_map.mp hxm
              exact hfresh (hek ▸ List.mem_map_of_mem Row.key (hl2sub e he2))
            exact hcm2o x hx1 hx2
          have hnew : flattenFrom (stepCm st.cm p.key d.key) (f + 1) p.key =
              p.key :: (((pre.filter (fun e => tightest root ds e == p)).map
                Row.key).bind (flattenFrom (stepCm st.cm p.key d.key) f) ++
                flattenFrom (stepCm st.cm p.key d.key) f d.key) := by
            simp [flattenFrom, hcm2p, List.bind_append]
          rw [hnew, hcongr, hbindeq, flattenFrom_empty hcm2d f]
          simp
      have hlift := lift_flatten hcm2o hfresh hkp hsp rest p hclast_pr hchain_pr
        (fun y hy => inv.f_all y (hpr_stack y hy)) hrest_nep hbase q hq2
      obtain ⟨n1, n2, hneq, _, hnfl⟩ := hlift
      refine ⟨n1, n2 ++ [d], ?_, ?_⟩
      · show root :: (pre ++ [d]) = n1 ++ q :: (n2 ++ [d])
        rw [show root :: (pre ++ [d]) = (root :: pre) ++ [d] from rfl, hneq]
        simp
      · intro fuel hf
        rw [hnfl fuel (by simp at hf ⊢; omega)]
        simp

theorem genFold_inv {root : Row} {ds : List Row} (ctx : GenCtx root ds) :
    ∀ (suf pre : List Row) (st : GenSt), ds = pre ++ suf → GenInv root ds pre st →
    ∃ st2, suf.foldlM genStep st = some st2 ∧ GenInv root ds (pre ++ suf) st2
  | [], pre, st, _, inv => ⟨st, rfl, by simpa using inv⟩
  | d :: suf, pre, st, hds, inv => by
      obtain ⟨st1, hstep, inv1⟩ := genStep_inv ctx hds inv
      obtain ⟨st2, hfold, inv2⟩ := genFold_inv ctx suf (pre ++ [d]) st1
        (by rw [hds]; simp) inv1
      refine ⟨st2, ?_, ?_⟩
      · rw [List.foldlM_cons, hstep]
        simpa using hfold
      · rw [show pre ++ d :: suf = (pre ++ [d]) ++ suf from by simp]
        exact inv2

/-- C8: for a root and a left-ordered scan of its descendants satisfying the
nesting invariant, the stack-based reconstruction succeeds, the preorder
flatten of the resulting children structure reproduces the scan, and a node
is recorded as a child of exactly its tightest enclosing interval. -/
theorem generate_tree_spec {root : Row} {ds : List Row} (ctx : GenCtx root ds) :
    ∃ st, generate_tree root ds = some st ∧
      flattenFrom st.cm (ds.length + 1) root.key = (root :: ds).map Row.key ∧
      (∀ e ∈ ds, ∀ q ∈ root :: ds,
        (e.key ∈ (st.cm q.key).getD [] ↔ q = tightest root ds e)) := by
  obtain ⟨st, hfold, inv⟩ := genFold_inv ctx ds [] _ (by simp) (genInv_init ctx)
  have hpre : ([] : List Row) ++ ds = ds := by simp
  rw [hpre] at inv
  refine ⟨st, hfold, ?_, ?_⟩
  · obtain ⟨s2, hs2⟩ := inv.s_decomp
    have hroot_stack : root ∈ st.stack := by rw [hs2]; simp
    obtain ⟨l1, l2, heq, hfl⟩ := inv.f_all root hroot_stack
    cases l1 with
    | nil =>
      have h2 : ds = l2 := by simpa using heq
      subst h2
      exact hfl (ds.length + 1) (le_refl _)
    | cons x l1t =>
      exfalso
      simp only [List.cons_append, List.cons.injEq] at heq
      obtain ⟨rfl, heq2⟩ := heq
      have hmem : root ∈ ds := by rw [heq2]; simp
      have := ctx.hkeys
      rw [List.map_cons, List.nodup_cons] at this
      exact this.1 (List.mem_map_of_mem Row.key hmem)
  · intro e he q hq
    have hcv := inv.c_val q hq
    rw [hcv]
    simp only [Option.getD_some]
    constructor
    · intro hmem
      obtain ⟨x, hx, hxk⟩ := List.mem_map.mp hmem
      obtain ⟨hxd, hxt⟩ := List.mem_filter.mp hx
      have hxe : x = e := List.inj_on_of_nodup_map ctx.hkeys
        (by simp [hxd]) (by simp [he]) hxk
      subst hxe
      exact (beq_iff_eq.mp hxt).symm
    · intro hqe
      apply List.mem_map_of_mem Row.key
      apply List.mem_filter.mpr
      exact ⟨he, beq_iff_eq.mpr hqe.symm⟩

/-- Witness for C8: reconstructing C's subtree of the scenario forest (root
A with the five descendants in scan order) flattens back to the scan. -/
theorem generate_tree_spec_witness :
    ∃ st, generate_tree ⟨1, 1, 12⟩
        [⟨2, 2, 3⟩, ⟨3, 4, 11⟩, ⟨4, 5, 6⟩, ⟨5, 7, 8⟩, ⟨6, 9, 10⟩] = some st ∧
      flattenFrom st.cm 6 1 = [1, 2, 3, 4, 5, 6] := by
  obtain ⟨st, h1, h2, _⟩ := @generate_tree_spec
    ⟨1, 1, 12⟩ [⟨2, 2, 3⟩, ⟨3, 4, 11⟩, ⟨4, 5, 6⟩, ⟨5, 7, 8⟩, ⟨6, 9, 10⟩]
    ⟨by decide, by decide, by decide, by decide, by decide⟩
  exact ⟨st, h1, h2⟩

/-! ## C10: the `children` property -/

/-- C10: the public `children` property returns `None` both when no
reconstruction has populated `_children` (it is unset) and when the
reconstructed child list is empty (a leaf); it returns the tuple of children
only when at least one child was reconstructed. -/
theorem children_spec :
    children none = none ∧
    children (some []) = none ∧
    (∀ l, l ≠ [] → children (some l) = some l) ∧
    (∀ (root : Row) (ds : List Row) (st : GenSt) (k : Nat),
      generate_tree root ds = some st → st.cm k = some [] →
        children (st.cm k) = none) := by
  refine ⟨rfl, rfl, ?_, ?_⟩
  · intro l hl
    cases l with
    | nil => exact absurd rfl hl
    | cons a l => rfl
  · intro root ds st k _ hk
    rw [hk]
    rfl

/-- Witness for C10: a singleton child list is returned as-is, the empty
one as `None`. -/
theorem children_spec_witness :
    children (some [5]) = some [5] ∧ children (some []) = none :=
  ⟨children_spec.2.2.1 [5] (by decide), children_spec.2.1⟩
